import Mathlib

/-!
Verification of the LOOT-Warning-Checker core against its source.

The Python modules `tools/LOOT/Conditions.py` and `tools/LOOT/Masterlist.py`
are shallowly embedded below: pure functions become Lean functions, the
filesystem / Mod Organizer facade (mobase) becomes explicit oracle
parameters, raised exceptions become explicit result constructors, and
Python dicts become association lists that keep insertion order (as Python
dicts do).
-/

namespace LWC

/-! ### Association lists (Python `dict` access order semantics)

`alookup k l` models `d.get(k)` / `d[k]` on a dict represented as an
insertion-ordered association list with distinct keys (first match wins).
-/

def alookup {α : Type} (k : String) : List (String × α) → Option α
  | [] => none
  | (k', v) :: rest => if k' = k then some v else alookup k rest

theorem alookup_nil {α : Type} (k : String) : alookup k ([] : List (String × α)) = none := rfl

theorem alookup_cons {α : Type} (k k' : String) (v : α) (l : List (String × α)) :
    alookup k ((k', v) :: l) = if k' = k then some v else alookup k l := rfl

/-! ### Boolean condition evaluation (`Conditions.py`, `_evalBooleanExpression`)

The source first validates the expression: it strips `(` and `)` characters,
splits on whitespace and requires every token to lie in
`("True", "False", "and", "or", "not")`, raising `InvalidConditionError`
otherwise.  Only then does it hand the string to Python's `eval`.
`eval` on this vocabulary is modelled by `pyEvalBool`: a tokenizer in which
parentheses are single-character tokens and other tokens are maximal runs of
non-whitespace non-parenthesis characters, followed by a recursive-descent
parser with Python's boolean precedence `or` < `and` < `not` (since `or` and
`and` are associative, the grouping of unparenthesised chains does not affect
the computed value).  A failed parse models `SyntaxError`.
-/

/-- Python `str.split()` whitespace (the ASCII whitespace characters). -/
def isWs (c : Char) : Bool :=
  c == ' ' || c == '\t' || c == '\n' || c == '\r' || c == '\x0b' || c == '\x0c'

def isParen (c : Char) : Bool := c == '(' || c == ')'

/-- Models `booleanExpression.replace("(", "").replace(")", "")`. -/
def stripParens (l : List Char) : List Char := l.filter (fun c => !isParen c)

/-- Whitespace splitting with an accumulator; models Python `str.split()`
(maximal runs of non-whitespace, empties discarded). -/
def splitWs : List Char → List Char → List String
  | [], acc => if acc.isEmpty then [] else [String.mk acc.reverse]
  | c :: cs, acc =>
    if isWs c then
      (if acc.isEmpty then [] else [String.mk acc.reverse]) ++ splitWs cs []
    else splitWs cs (c :: acc)

/-- The tokens inspected by the validation loop in `_evalBooleanExpression`. -/
def validationTokens (s : String) : List String := splitWs (stripParens s.data) []

/-- Membership in `("True", "False", "and", "or", "not")`. -/
def allowedToken (t : String) : Bool :=
  t == "True" || t == "False" || t == "and" || t == "or" || t == "not"

/-- Tokenizer for the modelled `eval`: parentheses are their own tokens,
other tokens are maximal runs of non-whitespace non-parenthesis characters. -/
def pyLex : List Char → List Char → List String
  | [], acc => if acc.isEmpty then [] else [String.mk acc.reverse]
  | c :: cs, acc =>
    if isParen c then
      (if acc.isEmpty then [] else [String.mk acc.reverse])
        ++ String.mk [c] :: pyLex cs []
    else if isWs c then
      (if acc.isEmpty then [] else [String.mk acc.reverse]) ++ pyLex cs []
    else pyLex cs (c :: acc)

mutual

/-- `or`-level of Python boolean expression parsing (lowest precedence). -/
def parseOrF : Nat → List String → Option (Bool × List String)
  | 0, _ => none
  | n + 1, toks =>
    match parseAndF n toks with
    | some (v, t :: r) =>
      if t = "or" then
        match parseOrF n r with
        | some (v2, r2) => some (v || v2, r2)
        | none => none
      else some (v, t :: r)
    | some (v, []) => some (v, [])
    | none => none

/-- `and`-level of Python boolean expression parsing. -/
def parseAndF : Nat → List String → Option (Bool × List String)
  | 0, _ => none
  | n + 1, toks =>
    match parseNotF n toks with
    | some (v, t :: r) =>
      if t = "and" then
        match parseAndF n r with
        | some (v2, r2) => some (v && v2, r2)
        | none => none
      else some (v, t :: r)
    | some (v, []) => some (v, [])
    | none => none

/-- `not`-level of Python boolean expression parsing (highest precedence). -/
def parseNotF : Nat → List String → Option (Bool × List String)
  | 0, _ => none
  | n + 1, t :: r =>
    if t = "not" then
      match parseNotF n r with
      | some (v, r2) => some (!v, r2)
      | none => none
    else parseAtomF n (t :: r)
  | _ + 1, [] => none

/-- Atoms: `True`, `False`, and parenthesised expressions. -/
def parseAtomF : Nat → List String → Option (Bool × List String)
  | 0, _ => none
  | n + 1, t :: r =>
    if t = "True" then some (true, r)
    else if t = "False" then some (false, r)
    else if t = "(" then
      match parseOrF n r with
      | some (v, t2 :: r2) => if t2 = ")" then some (v, r2) else none
      | _ => none
    else none
  | _ + 1, [] => none

end

/-- The modelled `eval` of a validated boolean expression: lex, then parse
requiring the whole input to be consumed.  `none` models `SyntaxError`. -/
def pyEvalBool (s : String) : Option Bool :=
  let toks := pyLex s.data []
  match parseOrF (4 * toks.length + 4) toks with
  | some (v, []) => some v
  | _ => none

/-- Result of `_evalBooleanExpression`: a boolean, an
`InvalidConditionError` carrying the offending token, or a `SyntaxError`
escaping from `eval`. -/
inductive EvalResult where
  | ok (b : Bool)
  | invalidToken (t : String)
  | syntaxError
deriving DecidableEq

/-- Model of `Conditions._evalBooleanExpression`: every whitespace-separated
token of the parenthesis-stripped string must be in the whitelist
(otherwise `InvalidConditionError` is raised for the first offender), and
only then is the string evaluated. -/
def _evalBooleanExpression (s : String) : EvalResult :=
  match (validationTokens s).find? (fun t => !allowedToken t) with
  | some t => .invalidToken t
  | none =>
    match pyEvalBool s with
    | some b => .ok b
    | none => .syntaxError

/-- C1: any condition with a token outside the whitelist (after stripping
parentheses and splitting on whitespace) makes evaluation fail with
`InvalidConditionError` rather than return a value. -/
theorem evalBoolean_invalid_token_fails (s : String)
    (h : ∃ t ∈ validationTokens s, allowedToken t = false) :
    ∃ t, _evalBooleanExpression s = .invalidToken t ∧
      t ∈ validationTokens s ∧ allowedToken t = false := by
  obtain ⟨t0, ht0mem, ht0bad⟩ := h
  cases hfind : (validationTokens s).find? (fun t => !allowedToken t) with
  | none =>
    exact absurd (by simpa using List.find?_eq_none.mp hfind t0 ht0mem) (by simp [ht0bad])
  | some t =>
    refine ⟨t, ?_, List.mem_of_find?_eq_some hfind, by simpa using List.find?_some hfind⟩
    simp [_evalBooleanExpression, hfind]

theorem evalBoolean_invalid_token_fails_witness :
    ∃ t, _evalBooleanExpression "True xor False" = .invalidToken t ∧
      t ∈ validationTokens "True xor False" ∧ allowedToken t = false :=
  evalBoolean_invalid_token_fails "True xor False" (by decide)

/-! ### Boolean expressions as an AST (for C2)

`BExpr` is the abstract syntax of the condition fragment built from the
literals `True`/`False`, `and`, `or`, `not` and parentheses.  `denote` is
standard boolean-algebra evaluation.  `rend` prints an expression with the
minimal parenthesisation dictated by the precedence `not` > `and` > `or`:
`atOr`/`atAnd`/`atNot`/`atAtom` are the token sequences produced when the
expression appears in a context expecting the respective precedence level
(a sub-expression of looser precedence gets wrapped in parentheses). -/

inductive BExpr where
  | lit (b : Bool)
  | not (a : BExpr)
  | and (a b : BExpr)
  | or (a b : BExpr)
deriving DecidableEq

def denote : BExpr → Bool
  | .lit b => b
  | .not a => !denote a
  | .and a b => denote a && denote b
  | .or a b => denote a || denote b

structure Rendered where
  atOr : List String
  atAnd : List String
  atNot : List String
  atAtom : List String

def rend : BExpr → Rendered
  | .lit true => ⟨["True"], ["True"], ["True"], ["True"]⟩
  | .lit false => ⟨["False"], ["False"], ["False"], ["False"]⟩
  | .not a =>
    ⟨"not" :: (rend a).atNot, "not" :: (rend a).atNot, "not" :: (rend a).atNot,
      "(" :: (("not" :: (rend a).atNot) ++ [")"])⟩
  | .and a b =>
    ⟨(rend a).atNot ++ "and" :: (rend b).atAnd,
      (rend a).atNot ++ "and" :: (rend b).atAnd,
      "(" :: (((rend a).atNot ++ "and" :: (rend b).atAnd) ++ [")"]),
      "(" :: (((rend a).atNot ++ "and" :: (rend b).atAnd) ++ [")"])⟩
  | .or a b =>
    ⟨(rend a).atAnd ++ "or" :: (rend b).atOr,
      "(" :: (((rend a).atAnd ++ "or" :: (rend b).atOr) ++ [")"]),
      "(" :: (((rend a).atAnd ++ "or" :: (rend b).atOr) ++ [")"]),
      "(" :: (((rend a).atAnd ++ "or" :: (rend b).atOr) ++ [")"])⟩

def orT (e : BExpr) : List String := (rend e).atOr
def andT (e : BExpr) : List String := (rend e).atAnd
def notT (e : BExpr) : List String := (rend e).atNot
def atomT (e : BExpr) : List String := (rend e).atAtom

theorem atomT_lit (b : Bool) : atomT (.lit b) = [if b then "True" else "False"] := by
  cases b <;> rfl

theorem atomT_not (a : BExpr) : atomT (.not a) = "(" :: (orT (.not a) ++ [")"]) := rfl

theorem atomT_and (a b : BExpr) : atomT (.and a b) = "(" :: (orT (.and a b) ++ [")"]) := rfl

theorem atomT_or (a b : BExpr) : atomT (.or a b) = "(" :: (orT (.or a b) ++ [")"]) := rfl

theorem notT_lit (b : Bool) : notT (.lit b) = atomT (.lit b) := by cases b <;> rfl

theorem notT_not (a : BExpr) : notT (.not a) = "not" :: notT a := rfl

theorem notT_and (a b : BExpr) : notT (.and a b) = atomT (.and a b) := rfl

theorem notT_or (a b : BExpr) : notT (.or a b) = atomT (.or a b) := rfl

theorem andT_lit (b : Bool) : andT (.lit b) = notT (.lit b) := by cases b <;> rfl

theorem andT_not (a : BExpr) : andT (.not a) = notT (.not a) := rfl

theorem andT_and (a b : BExpr) : andT (.and a b) = notT a ++ "and" :: andT b := rfl

theorem andT_or (a b : BExpr) : andT (.or a b) = notT (.or a b) := rfl

theorem orT_lit (b : Bool) : orT (.lit b) = andT (.lit b) := by cases b <;> rfl

theorem orT_not (a : BExpr) : orT (.not a) = andT (.not a) := rfl

theorem orT_and (a b : BExpr) : orT (.and a b) = andT (.and a b) := rfl

theorem orT_or (a b : BExpr) : orT (.or a b) = andT a ++ "or" :: orT b := rfl

theorem atomT_len (e : BExpr) : 1 ≤ (atomT e).length := by
  cases e with
  | lit b => cases b <;> simp [atomT, rend]
  | not a => simp [atomT_not]
  | and a b => simp [atomT_and]
  | or a b => simp [atomT_or]

theorem notT_len (e : BExpr) : 1 ≤ (notT e).length := by
  cases e with
  | lit b => rw [notT_lit]; exact atomT_len _
  | not a => simp [notT_not]
  | and a b => rw [notT_and]; exact atomT_len _
  | or a b => rw [notT_or]; exact atomT_len _

theorem andT_len (e : BExpr) : 1 ≤ (andT e).length := by
  cases e with
  | lit b => rw [andT_lit]; exact notT_len _
  | not a => rw [andT_not]; exact notT_len _
  | and a b => simp [andT_and]; omega
  | or a b => rw [andT_or]; exact notT_len _

theorem orT_len (e : BExpr) : 1 ≤ (orT e).length := by
  cases e with
  | lit b => rw [orT_lit]; exact andT_len _
  | not a => rw [orT_not]; exact andT_len _
  | and a b => rw [orT_and]; exact andT_len _
  | or a b => simp [orT_or]; omega

/-- The tokens a rendered expression can contain. -/
def tokSet : List String := ["True", "False", "and", "or", "not", "(", ")"]

def allTok (l : List String) : Prop := ∀ t ∈ l, t ∈ tokSet

theorem allTok_append {a b : List String} : allTok (a ++ b) ↔ allTok a ∧ allTok b := by
  simp only [allTok]
  exact List.forall_mem_append

theorem allTok_cons {t : String} {l : List String} :
    allTok (t :: l) ↔ t ∈ tokSet ∧ allTok l := by
  simp [allTok, List.forall_mem_cons]

theorem rend_tokSet (e : BExpr) :
    allTok (atomT e) ∧ allTok (notT e) ∧ allTok (andT e) ∧ allTok (orT e) := by
  induction e with
  | lit b =>
    cases b <;> refine ⟨?_, ?_, ?_, ?_⟩ <;> · intro t ht; simp [atomT, notT, andT, orT, rend] at ht; simp [ht, tokSet]
  | not a ih =>
    have hn : allTok (notT (.not a)) := by
      rw [notT_not, allTok_cons]
      exact ⟨by simp [tokSet], ih.2.1⟩
    have hat : allTok (atomT (.not a)) := by
      rw [atomT_not, orT_not, andT_not, allTok_cons, allTok_append, allTok_cons]
      exact ⟨by simp [tokSet], hn, by simp [tokSet], by intro t ht; simp at ht⟩
    exact ⟨hat, hn, by rw [andT_not]; exact hn, by rw [orT_not, andT_not]; exact hn⟩
  | and a b iha ihb =>
    have ha : allTok (andT (.and a b)) := by
      rw [andT_and, allTok_append, allTok_cons]
      exact ⟨iha.2.1, by simp [tokSet], ihb.2.2.1⟩
    have hat : allTok (atomT (.and a b)) := by
      rw [atomT_and, orT_and, allTok_cons, allTok_append, allTok_cons]
      exact ⟨by simp [tokSet], ha, by simp [tokSet], by intro t ht; simp at ht⟩
    exact ⟨hat, by rw [notT_and]; exact hat, ha, by rw [orT_and]; exact ha⟩
  | or a b iha ihb =>
    have ho : allTok (orT (.or a b)) := by
      rw [orT_or, allTok_append, allTok_cons]
      exact ⟨iha.2.2.1, by simp [tokSet], ihb.2.2.2⟩
    have hat : allTok (atomT (.or a b)) := by
      rw [atomT_or, allTok_cons, allTok_append, allTok_cons]
      exact ⟨by simp [tokSet], ho, by simp [tokSet], by intro t ht; simp at ht⟩
    exact ⟨hat, by rw [notT_or]; exact hat, by rw [andT_or, notT_or]; exact hat, ho⟩

/-- Token lists that may legally follow an `or`-level expression. -/
def FollowOr (r : List String) : Prop := r = [] ∨ ∃ r', r = ")" :: r'

/-- Token lists that may legally follow an `and`-level expression. -/
def FollowAnd (r : List String) : Prop := FollowOr r ∨ ∃ r', r = "or" :: r'

/-- Round-trip: the fuel-indexed recursive-descent parser modelling Python
`eval` recovers `denote e` from the rendered token sequence, at every
precedence level, once the fuel dominates four times the token count. -/
theorem parse_roundtrip : ∀ n : Nat,
    (∀ e rest, 4 * (orT e).length ≤ n → FollowOr rest →
      parseOrF n (orT e ++ rest) = some (denote e, rest)) ∧
    (∀ e rest, 4 * (andT e).length ≤ n + 1 → FollowAnd rest →
      parseAndF n (andT e ++ rest) = some (denote e, rest)) ∧
    (∀ e rest, 4 * (notT e).length ≤ n + 2 →
      parseNotF n (notT e ++ rest) = some (denote e, rest)) ∧
    (∀ e rest, 4 * (atomT e).length ≤ n + 3 →
      parseAtomF n (atomT e ++ rest) = some (denote e, rest)) := by
  intro n
  induction n with
  | zero =>
    refine ⟨fun e rest h _ => ?_, fun e rest h _ => ?_, fun e rest h => ?_,
      fun e rest h => ?_⟩
    · exact absurd h (by have := orT_len e; omega)
    · exact absurd h (by have := andT_len e; omega)
    · exact absurd h (by have := notT_len e; omega)
    · exact absurd h (by have := atomT_len e; omega)
  | succ n ih =>
    obtain ⟨ihOr, ihAnd, ihNot, ihAtom⟩ := ih
    refine ⟨fun e rest hf hfw => ?_, fun e rest hf hfw => ?_, fun e rest hf => ?_,
      fun e rest hf => ?_⟩
    -- or level
    · cases e with
      | or a b =>
        rw [orT_or] at hf ⊢
        simp only [List.length_append, List.length_cons] at hf
        have hla := andT_len a
        have hlb := orT_len b
        have h1 := ihAnd a ("or" :: (orT b ++ rest)) (by omega) (Or.inr ⟨_, rfl⟩)
        have h2 := ihOr b rest (by omega) hfw
        rw [List.append_assoc, List.cons_append]
        simp [parseOrF, h1, h2, denote]
      | lit b =>
        rw [orT_lit] at hf ⊢
        have h1 := ihAnd (.lit b) rest hf (Or.inl hfw)
        rcases hfw with rfl | ⟨r', rfl⟩
        · simp only [List.append_nil] at h1 ⊢
          simp [parseOrF, h1]
        · simp [parseOrF, h1]
      | not a =>
        rw [orT_not] at hf ⊢
        have h1 := ihAnd (.not a) rest hf (Or.inl hfw)
        rcases hfw with rfl | ⟨r', rfl⟩
        · simp only [List.append_nil] at h1 ⊢
          simp [parseOrF, h1]
        · simp [parseOrF, h1]
      | and a b =>
        rw [orT_and] at hf ⊢
        have h1 := ihAnd (.and a b) rest hf (Or.inl hfw)
        rcases hfw with rfl | ⟨r', rfl⟩
        · simp only [List.append_nil] at h1 ⊢
          simp [parseOrF, h1]
        · simp [parseOrF, h1]
    -- and level
    · cases e with
      | and a b =>
        rw [andT_and] at hf ⊢
        simp only [List.length_append, List.length_cons] at hf
        have hla := notT_len a
        have hlb := andT_len b
        have h1 := ihNot a ("and" :: (andT b ++ rest)) (by omega)
        have h2 := ihAnd b rest (by omega) hfw
        rw [List.append_assoc, List.cons_append]
        simp [parseAndF, h1, h2, denote]
      | lit b =>
        rw [andT_lit] at hf ⊢
        have h1 := ihNot (.lit b) rest (by omega)
        rcases hfw with (rfl | ⟨r', rfl⟩) | ⟨r', rfl⟩
        · simp only [List.append_nil] at h1 ⊢
          simp [parseAndF, h1]
        · simp [parseAndF, h1]
        · simp [parseAndF, h1]
      | not a =>
        rw [andT_not] at hf ⊢
        have h1 := ihNot (.not a) rest (by omega)
        rcases hfw with (rfl | ⟨r', rfl⟩) | ⟨r', rfl⟩
        · simp only [List.append_nil] at h1 ⊢
          simp [parseAndF, h1]
        · simp [parseAndF, h1]
        · simp [parseAndF, h1]
      | or a b =>
        rw [andT_or] at hf ⊢
        have h1 := ihNot (.or a b) rest (by omega)
        rcases hfw with (rfl | ⟨r', rfl⟩) | ⟨r', rfl⟩
        · simp only [List.append_nil] at h1 ⊢
          simp [parseAndF, h1]
        · simp [parseAndF, h1]
        · simp [parseAndF, h1]
    -- not level
    · cases e with
      | not a =>
        rw [notT_not] at hf ⊢
        simp only [List.length_cons] at hf
        have h1 := ihNot a rest (by omega)
        rw [List.cons_append]
        simp [parseNotF, h1, denote]
      | lit b =>
        rw [notT_lit] at hf ⊢
        have h1 := ihAtom (.lit b) rest (by omega)
        cases b <;> simp_all [parseNotF, atomT_lit]
      | and a b =>
        rw [notT_and] at hf ⊢
        have h1 := ihAtom (.and a b) rest (by omega)
        rw [atomT_and] at h1 ⊢
        simp only [List.cons_append, List.append_assoc, List.nil_append] at h1 ⊢
        simp [parseNotF, h1]
      | or a b =>
        rw [notT_or] at hf ⊢
        have h1 := ihAtom (.or a b) rest (by omega)
        rw [atomT_or] at h1 ⊢
        simp only [List.cons_append, List.append_assoc, List.nil_append] at h1 ⊢
        simp [parseNotF, h1]
    -- atom level
    · cases e with
      | lit b =>
        cases b <;> simp [atomT_lit, parseAtomF, denote]
      | not a =>
        rw [atomT_not] at hf ⊢
        simp only [List.length_cons, List.length_append] at hf
        have h1 := ihOr (.not a) (")" :: rest) (by omega) (Or.inr ⟨_, rfl⟩)
        rw [List.cons_append, List.append_assoc, List.cons_append]
        simp [parseAtomF, h1]
      | and a b =>
        rw [atomT_and] at hf ⊢
        simp only [List.length_cons, List.length_append] at hf
        have h1 := ihOr (.and a b) (")" :: rest) (by omega) (Or.inr ⟨_, rfl⟩)
        rw [List.cons_append, List.append_assoc, List.cons_append]
        simp [parseAtomF, h1]
      | or a b =>
        rw [atomT_or] at hf ⊢
        simp only [List.length_cons, List.length_append] at hf
        have h1 := ihOr (.or a b) (")" :: rest) (by omega) (Or.inr ⟨_, rfl⟩)
        rw [List.cons_append, List.append_assoc, List.cons_append]
        simp [parseAtomF, h1]

/-! ### From token lists back to strings

`render e` is the condition string obtained by joining the rendered tokens
with single spaces.  The lemmas below show that the validation tokenizer and
the `eval` tokenizer recover exactly the rendered tokens from that string. -/

/-- Characters that can occur inside a non-parenthesis token. -/
def wordChar (c : Char) : Bool := !(isWs c || isParen c)

/-- A token the joining/lexing lemmas can handle: a parenthesis, or a
non-empty word without whitespace or parentheses. -/
def goodTok (t : String) : Bool :=
  t == "(" || t == ")" || (!t.data.isEmpty && t.data.all wordChar)

def joinTokens : List String → List Char
  | [] => []
  | [t] => t.data
  | t :: ts => t.data ++ ' ' :: joinTokens ts

/-- The condition string printed for an expression. -/
def render (e : BExpr) : String := String.mk (joinTokens (orT e))

theorem mk_data (s : String) : String.mk s.data = s := rfl

theorem tokSet_good : ∀ t ∈ tokSet, goodTok t = true := by decide

theorem tokSet_allowed :
    ∀ t ∈ tokSet, (t == "(" || t == ")") = false → allowedToken t = true := by decide

theorem ne_nil_of_isEmpty_false {α : Type} {l : List α} (h : l.isEmpty = false) :
    l ≠ [] := by
  cases l with
  | nil => simp at h
  | cons a l => simp

theorem goodTok_cases {t : String} (h : goodTok t = true) :
    t = "(" ∨ t = ")" ∨ (t.data ≠ [] ∧ ∀ c ∈ t.data, wordChar c = true) := by
  by_cases h1 : t = "("
  · exact Or.inl h1
  by_cases h2 : t = ")"
  · exact Or.inr (Or.inl h2)
  refine Or.inr (Or.inr ?_)
  have b1 : (t == "(") = false := beq_eq_false_iff_ne.mpr h1
  have b2 : (t == ")") = false := beq_eq_false_iff_ne.mpr h2
  have h3 := h
  simp only [goodTok, b1, b2, Bool.false_or] at h3
  simp only [Bool.and_eq_true] at h3
  obtain ⟨h4, h5⟩ := h3
  refine ⟨?_, List.all_eq_true.mp h5⟩
  intro hnil
  rw [hnil] at h4
  simp at h4

theorem word_ne_lparen {t : String} (hall : ∀ c ∈ t.data, wordChar c = true) :
    t ≠ "(" := by
  intro h
  subst h
  have := hall '(' (by decide)
  simp [wordChar, isParen] at this

theorem word_ne_rparen {t : String} (hall : ∀ c ∈ t.data, wordChar c = true) :
    t ≠ ")" := by
  intro h
  subst h
  have := hall ')' (by decide)
  simp [wordChar, isParen] at this

theorem flushAcc (acc : List Char) (h : acc ≠ []) :
    (if acc.isEmpty then ([] : List String) else [String.mk acc.reverse])
      = [String.mk acc.reverse] := by
  cases acc with
  | nil => exact absurd rfl h
  | cons c cs => rfl

theorem pyLex_nil (acc : List Char) (h : acc ≠ []) :
    pyLex [] acc = [String.mk acc.reverse] := by
  cases acc with
  | nil => exact absurd rfl h
  | cons c cs => rfl

theorem splitWs_nil (acc : List Char) (h : acc ≠ []) :
    splitWs [] acc = [String.mk acc.reverse] := by
  cases acc with
  | nil => exact absurd rfl h
  | cons c cs => rfl

theorem wordChar_split {c : Char} (h : wordChar c = true) :
    isWs c = false ∧ isParen c = false := by
  simpa [wordChar] using h

theorem pyLex_word (w : List Char) (hw : ∀ c ∈ w, wordChar c = true) :
    ∀ rest acc, pyLex (w ++ rest) acc = pyLex rest (w.reverse ++ acc) := by
  induction w with
  | nil => intro rest acc; simp
  | cons c w ih =>
    intro rest acc
    obtain ⟨hws, hp⟩ := wordChar_split (hw c (List.mem_cons_self c w))
    have ihw : ∀ c' ∈ w, wordChar c' = true := fun c' hc' => hw c' (List.mem_cons_of_mem c hc')
    rw [List.cons_append]
    show pyLex (c :: (w ++ rest)) acc = _
    rw [pyLex, hp, hws]
    simp only [Bool.false_eq_true, if_false]
    rw [ih ihw rest (c :: acc)]
    simp

theorem splitWs_word (w : List Char) (hw : ∀ c ∈ w, wordChar c = true) :
    ∀ rest acc, splitWs (w ++ rest) acc = splitWs rest (w.reverse ++ acc) := by
  induction w with
  | nil => intro rest acc; simp
  | cons c w ih =>
    intro rest acc
    obtain ⟨hws, _⟩ := wordChar_split (hw c (List.mem_cons_self c w))
    have ihw : ∀ c' ∈ w, wordChar c' = true := fun c' hc' => hw c' (List.mem_cons_of_mem c hc')
    rw [List.cons_append]
    show splitWs (c :: (w ++ rest)) acc = _
    rw [splitWs, hws]
    simp only [Bool.false_eq_true, if_false]
    rw [ih ihw rest (c :: acc)]
    simp

theorem mk_lparen : String.mk ['('] = "(" := rfl

theorem mk_rparen : String.mk [')'] = ")" := rfl

theorem pyLex_join : ∀ toks, (∀ t ∈ toks, goodTok t = true) →
    pyLex (joinTokens toks) [] = toks := by
  intro toks
  induction toks with
  | nil => intro _; rfl
  | cons t ts ih =>
    intro h
    have ht := goodTok_cases (h t (List.mem_cons_self t ts))
    have hts : ∀ u ∈ ts, goodTok u = true := fun u hu => h u (List.mem_cons_of_mem t hu)
    cases ts with
    | nil =>
      rcases ht with rfl | rfl | ⟨hne, hall⟩
      · decide
      · decide
      · have hw := pyLex_word t.data hall [] []
        rw [List.append_nil, List.append_nil] at hw
        show pyLex t.data [] = [t]
        rw [hw, pyLex_nil _ (by simpa using hne)]
        simp [mk_data]
    | cons t2 ts2 =>
      have hjoin : joinTokens (t :: t2 :: ts2) = t.data ++ ' ' :: joinTokens (t2 :: ts2) := rfl
      rw [hjoin]
      rcases ht with rfl | rfl | ⟨hne, hall⟩
      · show pyLex ('(' :: ' ' :: joinTokens (t2 :: ts2)) [] = _
        rw [pyLex]
        simp only [isParen, List.isEmpty_nil]
        rw [pyLex]
        simp only [isParen, isWs, List.isEmpty_nil]
        rw [ih hts]
        simp [mk_lparen]
      · show pyLex (')' :: ' ' :: joinTokens (t2 :: ts2)) [] = _
        rw [pyLex]
        simp only [isParen, List.isEmpty_nil]
        rw [pyLex]
        simp only [isParen, isWs, List.isEmpty_nil]
        rw [ih hts]
        simp [mk_rparen]
      · rw [pyLex_word t.data hall (' ' :: joinTokens (t2 :: ts2)) []]
        rw [List.append_nil, pyLex]
        simp only [isParen, isWs]
        rw [flushAcc _ (by simpa using hne), ih hts]
        simp [mk_data]

theorem stripParens_word {w : List Char} (hall : ∀ c ∈ w, wordChar c = true) :
    stripParens w = w := by
  refine List.filter_eq_self.mpr ?_
  intro c hc
  simp [(wordChar_split (hall c hc)).2]

theorem validation_join : ∀ toks, (∀ t ∈ toks, goodTok t = true) →
    splitWs (stripParens (joinTokens toks)) []
      = toks.filter (fun t => !(t == "(" || t == ")")) := by
  intro toks
  induction toks with
  | nil => intro _; rfl
  | cons t ts ih =>
    intro h
    have ht := goodTok_cases (h t (List.mem_cons_self t ts))
    have hts : ∀ u ∈ ts, goodTok u = true := fun u hu => h u (List.mem_cons_of_mem t hu)
    cases ts with
    | nil =>
      rcases ht with rfl | rfl | ⟨hne, hall⟩
      · decide
      · decide
      · show splitWs (stripParens t.data) [] = _
        rw [stripParens_word hall]
        have hw := splitWs_word t.data hall [] []
        rw [List.append_nil, List.append_nil] at hw
        rw [hw, splitWs_nil _ (by simpa using hne)]
        have hkeep : (!(t == "(" || t == ")")) = true := by
          simp [word_ne_lparen hall, word_ne_rparen hall]
        simp [mk_data, List.filter, hkeep]
    | cons t2 ts2 =>
      have hjoin : joinTokens (t :: t2 :: ts2) = t.data ++ ' ' :: joinTokens (t2 :: ts2) := rfl
      rw [hjoin]
      have hstrip : stripParens (t.data ++ ' ' :: joinTokens (t2 :: ts2))
          = stripParens t.data ++ ' ' :: stripParens (joinTokens (t2 :: ts2)) := by
        simp [stripParens, List.filter_append, List.filter_cons, isParen]
      rw [hstrip]
      rcases ht with rfl | rfl | ⟨hne, hall⟩
      · have hdrop : stripParens ("(" : String).data = [] := rfl
        rw [hdrop, List.nil_append, splitWs]
        simp only [isWs, List.isEmpty_nil]
        rw [ih hts]
        simp [List.filter]
      · have hdrop : stripParens (")" : String).data = [] := rfl
        rw [hdrop, List.nil_append, splitWs]
        simp only [isWs, List.isEmpty_nil]
        rw [ih hts]
        simp [List.filter]
      · rw [stripParens_word hall]
        rw [splitWs_word t.data hall (' ' :: stripParens (joinTokens (t2 :: ts2))) []]
        rw [List.append_nil, splitWs]
        simp only [isWs]
        rw [flushAcc _ (by simpa using hne), ih hts]
        have hkeep : (!(t == "(" || t == ")")) = true := by
          simp [word_ne_lparen hall, word_ne_rparen hall]
        simp [mk_data, List.filter, hkeep]

/-- C2: for every condition built only from `True`/`False` literals combined
with `and`, `or`, `not` and parentheses (rendered with the precedence
`not` > `and` > `or`), `_evalBooleanExpression` returns precisely the
standard boolean-algebra value of the expression. -/
theorem evalBoolean_render_correct (e : BExpr) :
    _evalBooleanExpression (render e) = .ok (denote e) := by
  have htok : allTok (orT e) := (rend_tokSet e).2.2.2
  have hgood : ∀ t ∈ orT e, goodTok t = true := fun t ht => tokSet_good t (htok t ht)
  have hdata : (render e).data = joinTokens (orT e) := rfl
  have hval : validationTokens (render e)
      = (orT e).filter (fun t => !(t == "(" || t == ")")) := by
    show splitWs (stripParens (render e).data) [] = _
    rw [hdata]
    exact validation_join (orT e) hgood
  have hfind : (validationTokens (render e)).find? (fun t => !allowedToken t) = none := by
    rw [hval]
    refine List.find?_eq_none.mpr ?_
    intro x hx
    have hmem := List.mem_filter.mp hx
    have hall : allowedToken x = true :=
      tokSet_allowed x (htok x hmem.1) (by simpa using hmem.2)
    simp [hall]
  have hlex : pyLex (render e).data [] = orT e := by
    rw [hdata]
    exact pyLex_join (orT e) hgood
  have hparse := (parse_roundtrip (4 * (orT e).length + 4)).1 e [] (by omega) (Or.inl rfl)
  rw [List.append_nil] at hparse
  simp only [_evalBooleanExpression, pyEvalBool]
  rw [hfind, hlex, hparse]

/-! ### Condition functions (`Conditions.py`: `_checksum`, `_evalFunction`,
`_version`, `_productVersion`)

The Mod Organizer / filesystem facade is abstracted into oracle parameters:

* `resolve` models `_getAbsolutePath` — `found abs` is a successful
  resolution, `notFound` models the raised `FileNotFoundError`, and
  `invalid` models the raised `InvalidConditionError` (path outside the
  game directory);
* `isfile` models `os.path.isfile`;
* `crcOf` models `_computeCRC32` (reading the file's bytes);
* `getFileVersion` / `getProductVersion` model `mobase.getFileVersion` /
  `mobase.getProductVersion`, with `none` standing for a falsy result
  (Python `None` or the empty string), in which case the source substitutes
  `"0.0.0.0"`;
* `getFileOrigins` and `modVersion` model `IOrganizer.getFileOrigins` and
  `modList().getMod(origin).version()`;
* the comparison operator (one of the `_COMPARATORS`, already applied to
  `mobase.VersionInfo` wrappers in the source) is abstracted as a binary
  boolean `cmp` on the underlying version strings. -/

inductive Resolve where
  | found (abs : String)
  | notFound
  | invalid
deriving DecidableEq

/-- A condition function's outcome: a boolean, or a raised
`InvalidConditionError`. -/
inductive FnResult where
  | ok (b : Bool)
  | invalidCondition
deriving DecidableEq

/-- The plugin in whose context a condition is evaluated: `path` and the
already-known CRC32 (`GamebryoPlugin.path` / `GamebryoPlugin.crc`). -/
structure GPlugin where
  path : String
  crc : Nat
deriving DecidableEq

/-- Model of `LOOTConditionEvaluator._checksum`: resolve the path
(`FileNotFoundError` gives `False`), then compare the file's computed CRC32
with the expected value. -/
def _checksum (resolve : String → Resolve) (isfile : String → Bool)
    (crcOf : String → Nat) (filePath : String) (expectedChecksum : Nat) : FnResult :=
  match resolve filePath with
  | .notFound => .ok false
  | .invalid => .invalidCondition
  | .found abs => if isfile abs then .ok (crcOf abs == expectedChecksum) else .ok false

/-- Model of `LOOTConditionEvaluator._evalFunction` specialised to the
`checksum` function: with a context plugin whose path equals the argument,
the plugin's cached CRC is compared instead of calling `_checksum`. -/
def _evalFunction_checksum (resolve : String → Resolve) (isfile : String → Bool)
    (crcOf : String → Nat) (plugin : Option GPlugin)
    (filePath : String) (expectedCRC : Nat) : FnResult :=
  match plugin with
  | none => _checksum resolve isfile crcOf filePath expectedCRC
  | some p =>
    if filePath = p.path then .ok (p.crc == expectedCRC)
    else _checksum resolve isfile crcOf filePath expectedCRC

/-- C3: a `checksum(path, hex)` call evaluated in the context of a plugin
whose path the argument equals uses the plugin's cached checksum — the
result is the in-memory comparison and is independent of every filesystem
oracle, i.e. no file is read. -/
theorem checksum_context_uses_cached_crc
    (resolve resolve' : String → Resolve) (isfile isfile' : String → Bool)
    (crcOf crcOf' : String → Nat) (p : GPlugin) (filePath : String) (expectedCRC : Nat)
    (h : filePath = p.path) :
    _evalFunction_checksum resolve isfile crcOf (some p) filePath expectedCRC
        = .ok (p.crc == expectedCRC) ∧
    _evalFunction_checksum resolve isfile crcOf (some p) filePath expectedCRC
        = _evalFunction_checksum resolve' isfile' crcOf' (some p) filePath expectedCRC := by
  subst h
  simp [_evalFunction_checksum]

theorem checksum_context_uses_cached_crc_witness :
    _evalFunction_checksum (fun _ => .notFound) (fun _ => false) (fun _ => 0)
        (some ⟨"C:/games/Data/thisPlugin.esp", 0xDEADBEEF⟩)
        "C:/games/Data/thisPlugin.esp" 0xDEADBEEF = .ok true ∧
    _evalFunction_checksum (fun _ => .notFound) (fun _ => false) (fun _ => 0)
        (some ⟨"C:/games/Data/thisPlugin.esp", 0xDEADBEEF⟩)
        "C:/games/Data/thisPlugin.esp" 0xDEADBEEF
      = _evalFunction_checksum (fun _ => .invalid) (fun _ => true) (fun _ => 42)
        (some ⟨"C:/games/Data/thisPlugin.esp", 0xDEADBEEF⟩)
        "C:/games/Data/thisPlugin.esp" 0xDEADBEEF := by
  have h := checksum_context_uses_cached_crc (fun _ => .notFound) (fun _ => .invalid)
    (fun _ => false) (fun _ => true) (fun _ => 0) (fun _ => 42)
    ⟨"C:/games/Data/thisPlugin.esp", 0xDEADBEEF⟩ "C:/games/Data/thisPlugin.esp"
    0xDEADBEEF rfl
  exact ⟨by rw [h.1]; simp, h.2⟩

/-! ### `os.path.splitext` (extension extraction)

`extOf p` models `os.path.splitext(p)[1]`: the basename is the part after
the last `/` or `\`; the extension starts at the last `.` of the basename
provided some character before that dot (within the basename) is not a dot
itself (so `.bashrc` has no extension). -/

def basenameChars (l : List Char) : List Char :=
  l.foldl (fun acc c => if c = '/' ∨ c = '\\' then [] else acc ++ [c]) []

/-- Scan the reversed basename for the last dot; `acc` collects the
characters after it. -/
def extGo : List Char → List Char → List Char
  | [], _ => []
  | '.' :: before, acc => if before.any (fun c => !(c == '.')) then '.' :: acc else []
  | c :: rest, acc => extGo rest (c :: acc)

def extOf (p : String) : String := String.mk (extGo (basenameChars p.data).reverse [])

/-- Model of `LOOTConditionEvaluator._version`: resolve the file
(`FileNotFoundError` gives `False`); for `.exe`/`.dll` compare the file
version (defaulting to `0.0.0.0` when there is none); for plugin extensions
compare the owning mod's declared version (no origin gives `False`); other
extensions raise `InvalidConditionError`. -/
def _version (resolve : String → Resolve) (isfile : String → Bool)
    (getFileVersion : String → Option String) (getFileOrigins : String → List String)
    (modVersion : String → String) (cmp : String → String → Bool)
    (relativeFilePath givenVersion : String) : FnResult :=
  match resolve relativeFilePath with
  | .notFound => .ok false
  | .invalid => .invalidCondition
  | .found abs =>
    if isfile abs then
      if extOf relativeFilePath = ".exe" ∨ extOf relativeFilePath = ".dll" then
        .ok (cmp ((getFileVersion abs).getD "0.0.0.0") givenVersion)
      else if extOf relativeFilePath = ".esp" ∨ extOf relativeFilePath = ".esm"
          ∨ extOf relativeFilePath = ".esl" then
        match getFileOrigins relativeFilePath with
        | [] => .ok false
        | origin :: _ => .ok (cmp (modVersion origin) givenVersion)
      else .invalidCondition
    else .ok false

/-- Model of `LOOTConditionEvaluator._productVersion`: resolve the file
(`FileNotFoundError` gives `False`); for an existing `.exe`/`.dll` file
compare the product version (defaulting to `0.0.0.0`); anything else raises
`InvalidConditionError`. -/
def _productVersion (resolve : String → Resolve) (isfile : String → Bool)
    (getProductVersion : String → Option String) (cmp : String → String → Bool)
    (relativeFilePath givenVersion : String) : FnResult :=
  match resolve relativeFilePath with
  | .notFound => .ok false
  | .invalid => .invalidCondition
  | .found abs =>
    if isfile abs ∧ (extOf relativeFilePath = ".exe" ∨ extOf relativeFilePath = ".dll") then
      .ok (cmp ((getProductVersion abs).getD "0.0.0.0") givenVersion)
    else .invalidCondition

/-- C7 counterexample: for an absent file, `_version` returns `False`
(the `FileNotFoundError` branch) instead of applying the comparison to the
default version `0.0.0.0` as the claim states — here the comparison operator
constantly returns `True`, so the claim would demand `.ok true`. -/
theorem version_absent_file_counterexample :
    _version (fun _ => .notFound) (fun _ => false) (fun _ => none) (fun _ => [])
        (fun _ => "") (fun _ _ => true) "missing.exe" "1.0.0.0" = .ok false ∧
    _productVersion (fun _ => .notFound) (fun _ => false) (fun _ => none)
        (fun _ _ => true) "missing.exe" "1.0.0.0" = .ok false ∧
    (fun (_ _ : String) => true) "0.0.0.0" "1.0.0.0" = true ∧
    FnResult.ok false ≠ FnResult.ok true :=
  ⟨rfl, rfl, rfl, by decide⟩

/-- C7 (amended): when the referenced file is absent both functions return
`False` without applying `cmp`; when the file exists with a `.exe`/`.dll`
extension but has no version number, the version is taken to be `0.0.0.0`
and the result is `cmp` applied to it and the given version. -/
theorem version_default_version_amended
    (resolve : String → Resolve) (isfile : String → Bool)
    (getFileVersion getProductVersion : String → Option String)
    (getFileOrigins : String → List String) (modVersion : String → String)
    (cmp : String → String → Bool) (relPath given abs : String) :
    (resolve relPath = .notFound →
      _version resolve isfile getFileVersion getFileOrigins modVersion cmp relPath given
          = .ok false ∧
      _productVersion resolve isfile getProductVersion cmp relPath given = .ok false) ∧
    (resolve relPath = .found abs → isfile abs = true →
      (extOf relPath = ".exe" ∨ extOf relPath = ".dll") →
      getFileVersion abs = none →
      _version resolve isfile getFileVersion getFileOrigins modVersion cmp relPath given
          = .ok (cmp "0.0.0.0" given)) ∧
    (resolve relPath = .found abs → isfile abs = true →
      (extOf relPath = ".exe" ∨ extOf relPath = ".dll") →
      getProductVersion abs = none →
      _productVersion resolve isfile getProductVersion cmp relPath given
          = .ok (cmp "0.0.0.0" given)) := by
  refine ⟨fun h => ?_, fun h hf hext hv => ?_, fun h hf hext hv => ?_⟩
  · simp [_version, _productVersion, h]
  · simp [_version, h, hf, hext, hv]
  · simp [_productVersion, h, hf, hext, hv]

theorem version_default_version_amended_witness :
    _version (fun _ => .found "C:/x/app.exe") (fun _ => true) (fun _ => none)
        (fun _ => []) (fun _ => "") (fun a b => a == b) "app.exe" "0.0.0.0"
        = .ok true ∧
    _productVersion (fun _ => .notFound) (fun _ => true) (fun _ => none)
        (fun a b => a == b) "app.exe" "1.0.0.0" = .ok false := by
  have h1 := (version_default_version_amended (fun _ => .found "C:/x/app.exe")
    (fun _ => true) (fun _ => none) (fun _ => none) (fun _ => []) (fun _ => "")
    (fun a b => a == b) "app.exe" "0.0.0.0" "C:/x/app.exe").2.1 rfl rfl
    (by left; decide) rfl
  have h2 := (version_default_version_amended (fun _ => .notFound)
    (fun _ => true) (fun _ => none) (fun _ => none) (fun _ => []) (fun _ => "")
    (fun a b => a == b) "app.exe" "1.0.0.0" "C:/x/app.exe").1 rfl
  exact ⟨by rw [h1]; decide, h2.2⟩

/-! ### Metadata entry store (`Masterlist.py`, `_LOOTMasterlist`)

The store keeps two insertion-ordered mappings: exact lowercased names and
regex patterns.  A compiled regex (`re.compile(name)`, whose `.match`
anchors at the start of the string only) is abstracted as a predicate
`matches : String → Bool`; the record type is abstracted as `α` with a
Python-truthiness oracle `falsy` (a record dict is falsy iff empty).
`compile` models `re.compile` — `none` is a `re.error`, upon which the
entry is skipped with a warning. -/

/-- ASCII model of Python `str.lower()` (record names and queried plugin
names in this domain are ASCII). -/
def lowerChar (c : Char) : Char :=
  if 'A' ≤ c ∧ c ≤ 'Z' then Char.ofNat (c.toNat + 32) else c

def lowerStr (s : String) : String := String.mk (s.data.map lowerChar)

structure RegexEntry (α : Type) where
  pattern : String
  accepts : String → Bool
  entry : α

structure Masterlist (α : Type) where
  nameEntries : List (String × α)
  regexEntries : List (RegexEntry α)

/-- Model of `_LOOTMasterlist._getRegexEntry`: first regex entry (in store
iteration order) whose compiled pattern matches. -/
def _getRegexEntry {α : Type} (m : Masterlist α) (pluginName : String) : Option α :=
  (m.regexEntries.find? (fun r => r.accepts pluginName)).map (fun r => r.entry)

/-- Model of `_LOOTMasterlist.getEntry`: lowercase the queried name, then
`self._nameEntries.get(pluginName, None) or self._getRegexEntry(pluginName)`
— note Python's `or`: a falsy exact record (an empty dict) falls through to
the regex lookup. -/
def getEntry {α : Type} (falsy : α → Bool) (m : Masterlist α) (pluginName : String) :
    Option α :=
  match alookup (lowerStr pluginName) m.nameEntries with
  | some e => if falsy e then _getRegexEntry m (lowerStr pluginName) else some e
  | none => _getRegexEntry m (lowerStr pluginName)

/-- Model of `isRegex` in `Conditions.py`: the checked characters are those
of the raw string `r":\*?|"`, i.e. colon, backslash, asterisk, question
mark and pipe. -/
def isRegex (arg : String) : Bool :=
  [':', '\\', '*', '?', '|'].any (fun c => arg.data.contains c)

/-- Python dict assignment `d[k] = v`: replaces in place when the key
exists (keeping its position), appends otherwise. -/
def dictInsert {α : Type} (k : String) (v : α) (l : List (String × α)) :
    List (String × α) :=
  if l.any (fun p => p.1 == k) then l.map (fun p => if p.1 == k then (k, v) else p)
  else l ++ [(k, v)]

/-- Dict assignment on the regex mapping (keyed by pattern source). -/
def dictInsertRegex {α : Type} (r : RegexEntry α) (l : List (RegexEntry α)) :
    List (RegexEntry α) :=
  if l.any (fun x => x.pattern == r.pattern) then
    l.map (fun x => if x.pattern == r.pattern then r else x)
  else l ++ [r]

/-- Model of `_LOOTMasterlist._addRegex`: compile the pattern; on `re.error`
skip the entry (with a warning), otherwise store it in the regex mapping. -/
def _addRegex {α : Type} (compile : String → Option (String → Bool)) (name : String)
    (v : α) (m : Masterlist α) : Masterlist α :=
  match compile name with
  | none => m
  | some f => { m with regexEntries := dictInsertRegex ⟨name, f, v⟩ m.regexEntries }

/-- Model of `_LOOTMasterlist._addEntries`: each record's name is lowercased
and routed to the regex mapping when `isRegex` holds, to the exact mapping
otherwise.  (`entries` are the document's `(name, record)` pairs, the
`name` key having been popped from the record.) -/
def addEntriesStep {α : Type} (compile : String → Option (String → Bool))
    (acc : Masterlist α) (p : String × α) : Masterlist α :=
  if isRegex (lowerStr p.1) then _addRegex compile (lowerStr p.1) p.2 acc
  else { acc with nameEntries := dictInsert (lowerStr p.1) p.2 acc.nameEntries }

def _addEntries {α : Type} (compile : String → Option (String → Bool))
    (entries : List (String × α)) (m : Masterlist α) : Masterlist α :=
  entries.foldl (addEntriesStep compile) m

/-- One step of `_LOOTMasterlist.merge` on the exact-name mapping: a fresh
key is appended, an existing key's record is merged in place. -/
def mergeNameStep {α : Type} (mergeEntry : α → α → α) (acc : List (String × α))
    (p : String × α) : List (String × α) :=
  if acc.any (fun q => q.1 == p.1) then
    acc.map (fun q => if q.1 == p.1 then (q.1, mergeEntry q.2 p.2) else q)
  else acc ++ [p]

/-- One step of `_LOOTMasterlist.merge` on the regex mapping (keyed by the
pattern source; on a merge the stored compiled regex of `self` is kept). -/
def mergeRegexStep {α : Type} (mergeEntry : α → α → α) (acc : List (RegexEntry α))
    (r : RegexEntry α) : List (RegexEntry α) :=
  if acc.any (fun x => x.pattern == r.pattern) then
    acc.map (fun x =>
      if x.pattern == r.pattern then { x with entry := mergeEntry x.entry r.entry }
      else x)
  else acc ++ [r]

/-- Model of `_LOOTMasterlist.merge`: records only in `other` are added
(appended, by dict assignment on a fresh key); records in both are merged
in place by `_mergeEntry`, abstracted here as `mergeEntry`. -/
def mergeStores {α : Type} (mergeEntry : α → α → α) (self other : Masterlist α) :
    Masterlist α :=
  ⟨other.nameEntries.foldl (mergeNameStep mergeEntry) self.nameEntries,
    other.regexEntries.foldl (mergeRegexStep mergeEntry) self.regexEntries⟩

/-- Helper: the first matching element of a split list is found. -/
theorem find?_middle {β : Type} (p : β → Bool) (pre post : List β) (x : β)
    (hpre : ∀ y ∈ pre, p y = false) (hx : p x = true) :
    (pre ++ x :: post).find? p = some x := by
  induction pre with
  | nil => simp [List.find?, hx]
  | cons a l ih =>
    have ha := hpre a (List.mem_cons_self a l)
    rw [List.cons_append, List.find?]
    simp only [ha]
    exact ih fun y hy => hpre y (List.mem_cons_of_mem a hy)

/-- The concrete record type used for the store counterexamples: an
insertion-ordered dict of string fields (a YAML record with its `name`
popped).  Python truthiness: a dict is falsy iff it is empty. -/
def exampleStore : Masterlist (List (String × String)) :=
  ⟨[("foo.esp", [])],
    [⟨"foo\\.esp", fun s => "foo.esp".data.isPrefixOf s.data, [("detail", "x")]⟩]⟩

/-- C5 counterexample: the exact-name mapping holds a record for
`foo.esp`, but because that record is empty (falsy in Python), the
`get(...) or _getRegexEntry(...)` lookup returns the pattern entry's record
instead of the exact-name record the claim promises. -/
theorem getEntry_empty_record_counterexample :
    getEntry List.isEmpty exampleStore "Foo.esp" = some [("detail", "x")] ∧
    some [("detail", "x")] ≠ some ([] : List (String × String)) := by
  exact ⟨by decide, by decide⟩

/-- C5 (amended): lookup lowercases the queried name; a non-empty (truthy)
exact record is returned directly; an empty (falsy) or absent exact record
falls through to the pattern lookup, which returns the first pattern entry
(in store order) whose compiled pattern matches, or `none`. -/
theorem getEntry_lookup_amended {α : Type} (falsy : α → Bool) (m : Masterlist α)
    (name : String) (e : α) (pre post : List (RegexEntry α)) (r : RegexEntry α) :
    (alookup (lowerStr name) m.nameEntries = some e → falsy e = false →
      getEntry falsy m name = some e) ∧
    (alookup (lowerStr name) m.nameEntries = some e → falsy e = true →
      getEntry falsy m name = _getRegexEntry m (lowerStr name)) ∧
    (alookup (lowerStr name) m.nameEntries = none →
      getEntry falsy m name = _getRegexEntry m (lowerStr name)) ∧
    (m.regexEntries = pre ++ r :: post →
      (∀ r' ∈ pre, r'.accepts (lowerStr name) = false) →
      r.accepts (lowerStr name) = true →
      _getRegexEntry m (lowerStr name) = some r.entry) ∧
    ((∀ r' ∈ m.regexEntries, r'.accepts (lowerStr name) = false) →
      _getRegexEntry m (lowerStr name) = none) := by
  refine ⟨fun h hf => ?_, fun h hf => ?_, fun h => ?_, fun hsplit hpre hr => ?_,
    fun hnone => ?_⟩
  · simp [getEntry, h, hf]
  · simp [getEntry, h, hf]
  · simp [getEntry, h]
  · unfold _getRegexEntry
    rw [hsplit, find?_middle _ pre post r hpre hr]
    rfl
  · unfold _getRegexEntry
    rw [List.find?_eq_none.mpr (fun x hx => by simp [hnone x hx])]
    rfl

theorem getEntry_lookup_amended_witness :
    getEntry List.isEmpty
        (⟨[("foo.esp", [("detail", "y")])], []⟩ : Masterlist (List (String × String)))
        "Foo.esp" = some [("detail", "y")] ∧
    getEntry List.isEmpty
        (⟨[], [⟨"foo\\.esp", fun s => "foo.esp".data.isPrefixOf s.data,
          [("detail", "x")]⟩]⟩ : Masterlist (List (String × String)))
        "Foo.esp" = some [("detail", "x")] := by
  have h1 := (getEntry_lookup_amended List.isEmpty
    (⟨[("foo.esp", [("detail", "y")])], []⟩ : Masterlist (List (String × String)))
    "Foo.esp" [("detail", "y")] [] []
    ⟨"x", fun _ => false, []⟩).1 (by decide) (by decide)
  have h2 := (getEntry_lookup_amended List.isEmpty
    (⟨[], [⟨"foo\\.esp", fun s => "foo.esp".data.isPrefixOf s.data,
      [("detail", "x")]⟩]⟩ : Masterlist (List (String × String)))
    "Foo.esp" ([("detail", "y")]) [] []
    ⟨"foo\\.esp", fun s => "foo.esp".data.isPrefixOf s.data, [("detail", "x")]⟩)
  exact ⟨h1, by rw [h2.2.2.1 (by decide), h2.2.2.2.1 rfl (fun r' hr' => by simp at hr')
    (by decide)]⟩

/-! ### The routing invariant (C8) -/

/-- Pattern characters according to the spec's wording: `:`, `*`, `?`, `|`
(without the backslash the source also checks). -/
def specIsPattern (s : String) : Bool := [':', '*', '?', '|'].any (fun c => s.data.contains c)

/-- The store built by parsing a document whose only record name is
`a\b.esp` — a name containing a backslash but none of `:`, `*`, `?`, `|`. -/
def backslashStore : Masterlist (List (String × String)) :=
  _addEntries (fun _ => some (fun _ => false)) [("a\\b.esp", [("k", "v")])] ⟨[], []⟩

/-- C8 counterexample: the source's `isRegex` also treats a backslash as a
pattern character, so the name `a\b.esp` is routed to the pattern mapping
even though it is not a pattern by the claim's character set. -/
theorem isRegex_backslash_counterexample :
    backslashStore.regexEntries.map (fun r => r.pattern) = ["a\\b.esp"] ∧
    backslashStore.nameEntries = [] ∧
    specIsPattern "a\\b.esp" = false ∧
    isRegex "a\\b.esp" = true := by
  exact ⟨by decide, by decide, by decide, by decide⟩

/-- The routing invariant: exact keys are never pattern-like, and pattern
keys always are (with `isRegex`'s character set `:`, `\`, `*`, `?`, `|`). -/
def MLInv {α : Type} (m : Masterlist α) : Prop :=
  (∀ p ∈ m.nameEntries, isRegex p.1 = false) ∧
  (∀ r ∈ m.regexEntries, isRegex r.pattern = true)

theorem dictInsert_keys {α : Type} (k : String) (v : α) (l : List (String × α)) :
    ∀ p ∈ dictInsert k v l, p.1 = k ∨ p ∈ l := by
  intro p hp
  unfold dictInsert at hp
  by_cases h : l.any (fun q => q.1 == k) = true
  · rw [if_pos h] at hp
    obtain ⟨q, hq, hqe⟩ := List.mem_map.mp hp
    by_cases h2 : (q.1 == k) = true
    · rw [if_pos h2] at hqe
      exact Or.inl (by rw [← hqe])
    · rw [if_neg h2] at hqe
      exact Or.inr (hqe ▸ hq)
  · rw [if_neg h] at hp
    rcases List.mem_append.mp hp with h1 | h1
    · exact Or.inr h1
    · simp only [List.mem_singleton] at h1
      exact Or.inl (by rw [h1])

theorem dictInsertRegex_keys {α : Type} (r : RegexEntry α) (l : List (RegexEntry α)) :
    ∀ x ∈ dictInsertRegex r l, x.pattern = r.pattern ∨ x ∈ l := by
  intro x hx
  unfold dictInsertRegex at hx
  by_cases h : l.any (fun y => y.pattern == r.pattern) = true
  · rw [if_pos h] at hx
    obtain ⟨y, hy, hye⟩ := List.mem_map.mp hx
    by_cases h2 : (y.pattern == r.pattern) = true
    · rw [if_pos h2] at hye
      exact Or.inl (by rw [← hye])
    · rw [if_neg h2] at hye
      exact Or.inr (hye ▸ hy)
  · rw [if_neg h] at hx
    rcases List.mem_append.mp hx with h1 | h1
    · exact Or.inr h1
    · simp only [List.mem_singleton] at h1
      exact Or.inl (by rw [h1])

theorem addEntriesStep_inv {α : Type} (compile : String → Option (String → Bool))
    (m : Masterlist α) (p : String × α) (hm : MLInv m) :
    MLInv (addEntriesStep compile m p) := by
  unfold addEntriesStep
  by_cases hre : isRegex (lowerStr p.1) = true
  · rw [if_pos hre]
    unfold _addRegex
    cases compile (lowerStr p.1) with
    | none => exact hm
    | some f =>
      refine ⟨hm.1, fun r hr => ?_⟩
      rcases dictInsertRegex_keys ⟨lowerStr p.1, f, p.2⟩ m.regexEntries r hr with h | h
      · rw [h]; exact hre
      · exact hm.2 r h
  · rw [if_neg hre]
    simp only [Bool.not_eq_true] at hre
    refine ⟨fun q hq => ?_, hm.2⟩
    rcases dictInsert_keys (lowerStr p.1) p.2 m.nameEntries q hq with h | h
    · rw [h]; exact hre
    · exact hm.1 q h

theorem addEntries_inv {α : Type} (compile : String → Option (String → Bool)) :
    ∀ (entries : List (String × α)) (m : Masterlist α),
      MLInv m → MLInv (_addEntries compile entries m) := by
  intro entries
  induction entries with
  | nil => intro m hm; exact hm
  | cons p rest ih =>
    intro m hm
    show MLInv (_addEntries compile rest (addEntriesStep compile m p))
    exact ih _ (addEntriesStep_inv compile m p hm)

theorem mergeNameStep_inv {α : Type} (mergeEntry : α → α → α)
    (acc : List (String × α)) (x : String × α)
    (hacc : ∀ q ∈ acc, isRegex q.1 = false) (hx : isRegex x.1 = false) :
    ∀ q ∈ mergeNameStep mergeEntry acc x, isRegex q.1 = false := by
  intro q hq
  unfold mergeNameStep at hq
  by_cases h : acc.any (fun q => q.1 == x.1) = true
  · rw [if_pos h] at hq
    obtain ⟨q0, hq0, hq0e⟩ := List.mem_map.mp hq
    by_cases h2 : (q0.1 == x.1) = true
    · rw [if_pos h2] at hq0e
      rw [← hq0e]
      exact hacc q0 hq0
    · rw [if_neg h2] at hq0e
      exact hq0e ▸ hacc q0 hq0
  · rw [if_neg h] at hq
    rcases List.mem_append.mp hq with h1 | h1
    · exact hacc q h1
    · simp only [List.mem_singleton] at h1
      exact h1 ▸ hx

theorem mergeRegexStep_inv {α : Type} (mergeEntry : α → α → α)
    (acc : List (RegexEntry α)) (x : RegexEntry α)
    (hacc : ∀ r ∈ acc, isRegex r.pattern = true) (hx : isRegex x.pattern = true) :
    ∀ r ∈ mergeRegexStep mergeEntry acc x, isRegex r.pattern = true := by
  intro r hr
  unfold mergeRegexStep at hr
  by_cases h : acc.any (fun y => y.pattern == x.pattern) = true
  · rw [if_pos h] at hr
    obtain ⟨r0, hr0, hr0e⟩ := List.mem_map.mp hr
    by_cases h2 : (r0.pattern == x.pattern) = true
    · rw [if_pos h2] at hr0e
      rw [← hr0e]
      exact hr0 |> hacc r0
    · rw [if_neg h2] at hr0e
      exact hr0e ▸ hacc r0 hr0
  · rw [if_neg h] at hr
    rcases List.mem_append.mp hr with h1 | h1
    · exact hacc r h1
    · simp only [List.mem_singleton] at h1
      exact h1 ▸ hx

theorem mergeStores_inv {α : Type} (mergeEntry : α → α → α) (s t : Masterlist α)
    (hs : MLInv s) (ht : MLInv t) : MLInv (mergeStores mergeEntry s t) := by
  constructor
  · have main : ∀ (other : List (String × α)), (∀ q ∈ other, isRegex q.1 = false) →
        ∀ (acc : List (String × α)), (∀ q ∈ acc, isRegex q.1 = false) →
        ∀ p ∈ other.foldl (mergeNameStep mergeEntry) acc, isRegex p.1 = false := by
      intro other
      induction other with
      | nil => intro _ acc hacc p hp; exact hacc p hp
      | cons x rest ih =>
        intro hother acc hacc
        exact ih (fun q hq => hother q (List.mem_cons_of_mem x hq)) _
          (mergeNameStep_inv mergeEntry acc x hacc
            (hother x (List.mem_cons_self x rest)))
    exact main t.nameEntries ht.1 s.nameEntries hs.1
  · have main : ∀ (other : List (RegexEntry α)), (∀ x ∈ other, isRegex x.pattern = true) →
        ∀ (acc : List (RegexEntry α)), (∀ x ∈ acc, isRegex x.pattern = true) →
        ∀ r ∈ other.foldl (mergeRegexStep mergeEntry) acc, isRegex r.pattern = true := by
      intro other
      induction other with
      | nil => intro _ acc hacc r hr; exact hacc r hr
      | cons x rest ih =>
        intro hother acc hacc
        exact ih (fun q hq => hother q (List.mem_cons_of_mem x hq)) _
          (mergeRegexStep_inv mergeEntry acc x hacc
            (hother x (List.mem_cons_self x rest)))
    exact main t.regexEntries ht.2 s.regexEntries hs.2

/-- C8 (amended): with the source's pattern character set `:`, `\`, `*`,
`?`, `|` (the claim omitted the backslash), and noting that a pattern whose
compilation fails is skipped entirely, the routing invariant holds for any
store built by parsing and is preserved by merge: exact keys are never
pattern-like and pattern keys always are (so a stored name lives in the
pattern mapping iff it is a pattern). -/
theorem store_routing_invariant_amended {α : Type}
    (compile : String → Option (String → Bool)) (entries : List (String × α))
    (m0 s t : Masterlist α) (mergeEntry : α → α → α)
    (h0 : MLInv m0) (hs : MLInv s) (ht : MLInv t) :
    MLInv (_addEntries compile entries m0) ∧ MLInv (mergeStores mergeEntry s t) :=
  ⟨addEntries_inv compile entries m0 h0, mergeStores_inv mergeEntry s t hs ht⟩

theorem store_routing_invariant_amended_witness :
    MLInv backslashStore ∧
    MLInv (mergeStores (fun a _ => a) backslashStore backslashStore) := by
  have hemp : MLInv (⟨[], []⟩ : Masterlist (List (String × String))) :=
    ⟨fun p hp => by simp at hp, fun r hr => by simp at hr⟩
  have h1 := store_routing_invariant_amended (fun _ => some (fun _ => false))
    [("a\\b.esp", [("k", "v")])] (⟨[], []⟩ : Masterlist (List (String × String)))
    ⟨[], []⟩ ⟨[], []⟩ (fun a _ => a) hemp hemp hemp
  have hinv : MLInv backslashStore := h1.1
  have h2 := store_routing_invariant_amended (fun _ => some (fun _ => false))
    [("a\\b.esp", [("k", "v")])] (⟨[], []⟩ : Masterlist (List (String × String)))
    backslashStore backslashStore (fun a _ => a) hemp hinv hinv
  exact ⟨hinv, h2.2⟩

/-! ### File-set merge (`Masterlist.py`, `_mergeFileSets`)

A file entry is either a bare path string or a structured dict (with at
least a `name` key; `display`/`detail`/`condition` are further string
fields).  `_mergeFileSets` walks the user (override) set: an entry whose
name matches nothing in the master set is appended; a structured user entry
matching a plain master string removes that string and appends the user
entry; two structured entries are merged in place with `dict.update`
(override fields win, position kept).  The scan-and-modify of the source
(`next(...)` then `remove`/`append`/`update`) is modelled by the structural
scan `mergeStep`, which edits at the first matching position. -/

inductive LFile where
  | s (name : String)
  | d (fields : List (String × String))
deriving DecidableEq

/-- `userFile["name"] if isinstance(userFile, dict) else userFile`
(a structured entry without a `name` key raises `KeyError` in the source;
here it yields the sentinel `""`). -/
def fileName : LFile → String
  | .s n => n
  | .d fields => (alookup "name" fields).getD ""

/-- The match predicate of the `next(...)` scan:
`file == userFileName or isinstance(file, dict) and file["name"] == userFileName`. -/
def fileMatches (n : String) : LFile → Bool
  | .s m => m == n
  | .d fields => alookup "name" fields == some n

/-- Python `dict.update`: existing keys keep their position and take the
override's value; new override keys are appended in override order. -/
def dictUpdate (base over : List (String × String)) : List (String × String) :=
  base.map (fun p =>
    match alookup p.1 over with
    | some v => (p.1, v)
    | none => p) ++ over.filter (fun p => (alookup p.1 base).isNone)

/-- Process one user entry against the master set (one iteration of the
`for userFile in userFileSet` loop of `_mergeFileSets`). -/
def mergeStep (uf : LFile) : List LFile → List LFile
  | [] => [uf]
  | f :: rest =>
    if fileMatches (fileName uf) f then
      match uf, f with
      | .s _, _ => f :: rest
      | .d _, .s _ => rest ++ [uf]
      | .d ufields, .d mfields => .d (dictUpdate mfields ufields) :: rest
    else f :: mergeStep uf rest

theorem mergeStep_nil (uf : LFile) : mergeStep uf [] = [uf] := rfl

theorem mergeStep_cons (uf f : LFile) (rest : List LFile) :
    mergeStep uf (f :: rest)
      = if fileMatches (fileName uf) f then
          match uf, f with
          | .s _, _ => f :: rest
          | .d _, .s _ => rest ++ [uf]
          | .d ufields, .d mfields => .d (dictUpdate mfields ufields) :: rest
        else f :: mergeStep uf rest := by
  rw [mergeStep.eq_def]

/-- Model of `_mergeFileSets`: an empty master set short-circuits to the
user set, otherwise each user entry is merged in. -/
def _mergeFileSets (masterFileSet userFileSet : List LFile) : List LFile :=
  if masterFileSet.isEmpty then userFileSet
  else userFileSet.foldl (fun acc uf => mergeStep uf acc) masterFileSet

theorem alookup_split {α : Type} (k : String) (a b : List (String × α)) :
    alookup k (a ++ b)
      = match alookup k a with
        | some v => some v
        | none => alookup k b := by
  induction a with
  | nil => simp [alookup]
  | cons p a ih =>
    rcases p with ⟨k1, v1⟩
    rw [List.cons_append, alookup_cons, alookup_cons]
    by_cases h : k1 = k
    · simp [h]
    · simp [h, ih]

theorem alookup_mapUpdate (base over : List (String × String)) (k : String) :
    alookup k (base.map (fun p =>
        match alookup p.1 over with
        | some v => (p.1, v)
        | none => p))
      = match alookup k base with
        | some v => some (match alookup k over with
            | some w => w
            | none => v)
        | none => none := by
  induction base with
  | nil => simp [alookup]
  | cons p base ih =>
    rcases p with ⟨k1, v1⟩
    by_cases h : k1 = k
    · subst h
      cases hov : alookup k1 over with
      | some w => simp [List.map, hov, alookup_cons]
      | none => simp [List.map, hov, alookup_cons]
    · cases hov : alookup k1 over with
      | some w => simp [List.map, hov, alookup_cons, h, ih]
      | none => simp [List.map, hov, alookup_cons, h, ih]

theorem alookup_filterFresh (base over : List (String × String)) (k : String) :
    alookup k (over.filter (fun p => (alookup p.1 base).isNone))
      = match alookup k base with
        | some _ => none
        | none => alookup k over := by
  induction over with
  | nil => cases alookup k base <;> simp [alookup]
  | cons p over ih =>
    rcases p with ⟨k1, v1⟩
    by_cases h : k1 = k
    · subst h
      cases hb : alookup k1 base with
      | some w => simp [List.filter_cons, hb, ih, alookup_cons]
      | none => simp [List.filter_cons, hb, alookup_cons]
    · cases hb1 : alookup k1 base with
      | some w => simp [List.filter_cons, hb1, alookup_cons, h, ih]
      | none => simp [List.filter_cons, hb1, alookup_cons, h, ih]

/-- The merged dict answers every lookup with the override's value when the
override has the key, and the base's value otherwise. -/
theorem dictUpdate_lookup (base over : List (String × String)) (k : String) :
    alookup k (dictUpdate base over)
      = match alookup k over with
        | some v => some v
        | none => alookup k base := by
  unfold dictUpdate
  rw [alookup_split, alookup_mapUpdate, alookup_filterFresh]
  cases hb : alookup k base <;> cases hov : alookup k over <;> simp

theorem mergeStep_no_match (uf : LFile) :
    ∀ l, (∀ f ∈ l, fileMatches (fileName uf) f = false) →
      mergeStep uf l = l ++ [uf] := by
  intro l
  induction l with
  | nil => intro _; rfl
  | cons f rest ih =>
    intro h
    have hf := h f (List.mem_cons_self f rest)
    rw [mergeStep_cons, hf]
    simp only [Bool.false_eq_true, if_false]
    rw [ih fun g hg => h g (List.mem_cons_of_mem f hg)]
    rfl

theorem mergeStep_promote (ufields : List (String × String)) (n : String)
    (hu : alookup "name" ufields = some n) :
    ∀ pre post, (∀ f ∈ pre, fileMatches n f = false) →
      mergeStep (.d ufields) (pre ++ .s n :: post) = pre ++ post ++ [.d ufields] := by
  have hname : fileName (.d ufields) = n := by simp [fileName, hu]
  intro pre
  induction pre with
  | nil =>
    intro post _
    rw [List.nil_append, mergeStep_cons, hname]
    simp [fileMatches]
  | cons a pre ih =>
    intro post hpre
    have ha := hpre a (List.mem_cons_self a pre)
    rw [List.cons_append, mergeStep_cons, hname, ha]
    simp only [Bool.false_eq_true, if_false]
    rw [ih post fun g hg => hpre g (List.mem_cons_of_mem a hg)]
    simp

theorem mergeStep_overlay (ufields mfields : List (String × String)) (n : String)
    (hu : alookup "name" ufields = some n) (hm : alookup "name" mfields = some n) :
    ∀ pre post, (∀ f ∈ pre, fileMatches n f = false) →
      mergeStep (.d ufields) (pre ++ .d mfields :: post)
        = pre ++ .d (dictUpdate mfields ufields) :: post := by
  have hname : fileName (.d ufields) = n := by simp [fileName, hu]
  intro pre
  induction pre with
  | nil =>
    intro post _
    rw [List.nil_append, mergeStep_cons, hname]
    simp [fileMatches, hm]
  | cons a pre ih =>
    intro post hpre
    have ha := hpre a (List.mem_cons_self a pre)
    rw [List.cons_append, mergeStep_cons, hname, ha]
    simp only [Bool.false_eq_true, if_false]
    rw [ih post fun g hg => hpre g (List.mem_cons_of_mem a hg)]
    rfl

theorem mergeFileSets_single (master : List LFile) (uf : LFile) (h : master ≠ []) :
    _mergeFileSets master [uf] = mergeStep uf master := by
  unfold _mergeFileSets
  cases master with
  | nil => exact absurd rfl h
  | cons f rest => rfl

/-- C4: requirements/incompatibilities merge by name identity — a
structured override entry matching no base entry is appended; one matching
a plain base string replaces it and leaves exactly one entry of that name;
one matching a structured base entry is field-overlaid with override fields
winning; in particular base `["A.esp"]` merged with override
`[{name: A.esp, detail: x}]` is that single structured entry. -/
theorem mergeFileSets_by_name
    (master pre post : List LFile) (n : String)
    (mfields ufields : List (String × String)) (k v : String)
    (hu : alookup "name" ufields = some n) :
    (master ≠ [] → (∀ f ∈ master, fileMatches n f = false) →
      _mergeFileSets master [.d ufields] = master ++ [.d ufields]) ∧
    ((∀ f ∈ pre, fileMatches n f = false) → (∀ f ∈ post, fileMatches n f = false) →
      _mergeFileSets (pre ++ .s n :: post) [.d ufields] = pre ++ post ++ [.d ufields] ∧
      (pre ++ post ++ [LFile.d ufields]).countP (fileMatches n) = 1) ∧
    ((∀ f ∈ pre, fileMatches n f = false) → alookup "name" mfields = some n →
      _mergeFileSets (pre ++ .d mfields :: post) [.d ufields]
          = pre ++ .d (dictUpdate mfields ufields) :: post ∧
      (alookup k ufields = some v → alookup k (dictUpdate mfields ufields) = some v)) ∧
    _mergeFileSets [.s "A.esp"] [.d [("name", "A.esp"), ("detail", "x")]]
      = [.d [("name", "A.esp"), ("detail", "x")]] := by
  have hname : fileName (.d ufields) = n := by simp [fileName, hu]
  refine ⟨fun hne hmaster => ?_, fun hpre hpost => ⟨?_, ?_⟩, fun hpre hm => ⟨?_, fun hk => ?_⟩, ?_⟩
  · rw [mergeFileSets_single master _ hne]
    exact mergeStep_no_match _ master (by rw [hname]; exact hmaster)
  · rw [mergeFileSets_single _ _ (by simp)]
    exact mergeStep_promote ufields n hu pre post hpre
  · rw [List.countP_append, List.countP_append]
    rw [List.countP_eq_zero.mpr (by intro f hf; simp [hpre f hf]),
      List.countP_eq_zero.mpr (by intro f hf; simp [hpost f hf])]
    simp [List.countP_cons, fileMatches, hu]
  · rw [mergeFileSets_single _ _ (by simp)]
    exact mergeStep_overlay ufields mfields n hu hm pre post hpre
  · rw [dictUpdate_lookup, hk]
  · have h := mergeStep_promote [("name", "A.esp"), ("detail", "x")] "A.esp" (by decide)
      [] [] (fun f hf => by simp at hf)
    rw [mergeFileSets_single _ _ (by simp)]
    simpa using h

theorem mergeFileSets_by_name_witness :
    _mergeFileSets [LFile.s "B.esp"] [LFile.d [("name", "A.esp"), ("detail", "x")]]
        = [LFile.s "B.esp", LFile.d [("name", "A.esp"), ("detail", "x")]] ∧
    _mergeFileSets [LFile.s "A.esp"] [LFile.d [("name", "A.esp"), ("detail", "x")]]
        = [LFile.d [("name", "A.esp"), ("detail", "x")]] ∧
    alookup "detail" (dictUpdate [("name", "A.esp"), ("detail", "y")]
        [("name", "A.esp"), ("detail", "x")]) = some "x" := by
  have h := mergeFileSets_by_name [LFile.s "B.esp"] [] [] "A.esp"
    [("name", "A.esp"), ("detail", "y")] [("name", "A.esp"), ("detail", "x")]
    "detail" "x" (by decide)
  refine ⟨h.1 (by simp) (by decide), ?_, ?_⟩
  · have h2 := (h.2.1 (fun f hf => by simp at hf) (fun f hf => by simp at hf)).1
    simpa using h2
  · exact (h.2.2.1 (fun f hf => by simp at hf) (by decide)).2 (by decide)

/-- C10 (implicit): promotion removes the plain base entry from its
position and appends the structured override entry at the end (so the
relative order of the base entries is not preserved), while a
structured-with-structured merge keeps the entry's original position; in
particular merging `["A.esp", "B.esp"]` with `[{name: A.esp}]` puts the
`A.esp` entry after `B.esp`. -/
theorem mergeFileSets_promotion_moves_to_end
    (pre post : List LFile) (n : String) (mfields ufields : List (String × String))
    (hu : alookup "name" ufields = some n)
    (hpre : ∀ f ∈ pre, fileMatches n f = false) :
    _mergeFileSets (pre ++ .s n :: post) [.d ufields] = pre ++ post ++ [.d ufields] ∧
    (alookup "name" mfields = some n →
      _mergeFileSets (pre ++ .d mfields :: post) [.d ufields]
        = pre ++ .d (dictUpdate mfields ufields) :: post) ∧
    _mergeFileSets [LFile.s "A.esp", LFile.s "B.esp"] [LFile.d [("name", "A.esp")]]
      = [LFile.s "B.esp", LFile.d [("name", "A.esp")]] := by
  refine ⟨?_, fun hm => ?_, ?_⟩
  · rw [mergeFileSets_single _ _ (by simp)]
    exact mergeStep_promote ufields n hu pre post hpre
  · rw [mergeFileSets_single _ _ (by simp)]
    exact mergeStep_overlay ufields mfields n hu hm pre post hpre
  · have h := mergeStep_promote [("name", "A.esp")] "A.esp" (by decide)
      [] [LFile.s "B.esp"] (fun f hf => by simp at hf)
    rw [mergeFileSets_single _ _ (by simp)]
    simpa using h

theorem mergeFileSets_promotion_moves_to_end_witness :
    _mergeFileSets [LFile.s "A.esp", LFile.s "B.esp"] [LFile.d [("name", "A.esp")]]
      = [LFile.s "B.esp", LFile.d [("name", "A.esp")]] :=
  (mergeFileSets_promotion_moves_to_end [] [LFile.s "B.esp"] "A.esp" []
    [("name", "A.esp")] (by decide) (fun f hf => by simp at hf)).2.2

/-! ### Warning generation (`Masterlist.py`, `LOOTMasterlistLoader`)

Oracles:

* `fc : String → Option Bool` models `self._conditionEvaluator._file`
  (`none` = a raised exception, which no requirement/incompatibility loop
  catches, so it escapes to the per-package handler);
* `ec : String → String → CondOutcome` models
  `self._conditionEvaluator.evalCondition(condition, plugin)` given the
  context plugin's name and the condition text: a boolean, an
  `InvalidConditionError` (caught and logged where the source catches it),
  or any other exception (escapes to the per-package handler);
* `lookup : String → Option PluginEntry` models
  `self._masterlist.getEntry(plugin.name)` (the store itself is verified
  separately);
* a package (`GamebryoPlugin`) is modelled by its name, its CRC32 (already
  loaded by the structural check, which runs first) and
  `parse = some (isLightPlugin, isValidAsLightPlugin)`, with `none` for a
  raised `PluginParseError`.

A generator that may raise after yielding some items is modelled as
`List LOOTWarning × Bool`: the warnings yielded so far plus an aborted
flag.  Each loop body maps one metadata item to an `EntryAct`:
yield a warning, skip it, or abort the whole per-package generator. -/

inductive CondOutcome where
  | ok (b : Bool)
  | invalid
  | exc
deriving DecidableEq

structure PkgModel where
  name : String
  crc : Nat
  parse : Option (Bool × Bool)
deriving DecidableEq

structure MsgM where
  type : String
  content : String
  condition : Option String
deriving DecidableEq

structure DirtyM where
  crc : Nat
  detail : String
deriving DecidableEq

/-- The four metadata fields the loader reads from a record; `none` models
an absent field (or one that is not a list, which the `isinstance` guards
skip). -/
structure PluginEntry where
  req : Option (List LFile)
  inc : Option (List LFile)
  msg : Option (List MsgM)
  dirty : Option (List DirtyM)
deriving DecidableEq

inductive LOOTWarning where
  | formIDOutOfRange (pluginName : String)
  | missingRequirement (pluginName : String) (file : LFile)
  | incompatibility (pluginName : String) (file : LFile)
  | message (pluginName : String) (msg : MsgM)
  | dirtyPlugin (pluginName : String) (d : DirtyM)
deriving DecidableEq

inductive EntryAct where
  | yield (w : LOOTWarning)
  | skip
  | abort
deriving DecidableEq

/-- One iteration of `_getMissingRequirementWarnings`: a plain string entry
warns when the `file()` check fails; a structured entry additionally
consults its optional condition — `InvalidConditionError` from the
condition is caught (entry skipped), other exceptions abort. -/
def reqEntryAct (fc : String → Option Bool) (ec : String → String → CondOutcome)
    (pname : String) : LFile → EntryAct
  | .s fname =>
    match fc fname with
    | none => .abort
    | some true => .skip
    | some false => .yield (.missingRequirement pname (.s fname))
  | .d fields =>
    match alookup "name" fields with
    | none => .abort
    | some fname =>
      match fc fname with
      | none => .abort
      | some true => .skip
      | some false =>
        match alookup "condition" fields with
        | none => .yield (.missingRequirement pname (.d fields))
        | some c =>
          match ec pname c with
          | .ok true => .yield (.missingRequirement pname (.d fields))
          | .ok false => .skip
          | .invalid => .skip
          | .exc => .abort

/-- One iteration of `_getIncompatibilityWarnings` (mirror logic: warns when
the file IS found and the condition, if any, holds). -/
def incEntryAct (fc : String → Option Bool) (ec : String → String → CondOutcome)
    (pname : String) : LFile → EntryAct
  | .s fname =>
    match fc fname with
    | none => .abort
    | some true => .yield (.incompatibility pname (.s fname))
    | some false => .skip
  | .d fields =>
    match alookup "name" fields with
    | none => .abort
    | some fname =>
      match fc fname with
      | none => .abort
      | some false => .skip
      | some true =>
        match alookup "condition" fields with
        | none => .yield (.incompatibility pname (.d fields))
        | some c =>
          match ec pname c with
          | .ok true => .yield (.incompatibility pname (.d fields))
          | .ok false => .skip
          | .invalid => .skip
          | .exc => .abort

/-- One iteration of `_getMessageWarnings`: `includeInfo or msg["type"] in
("warn", "error")`, then the optional condition (`InvalidConditionError`
skips the message). -/
def msgEntryAct (ec : String → String → CondOutcome) (includeInfo : Bool)
    (pname : String) (m : MsgM) : EntryAct :=
  if includeInfo || m.type == "warn" || m.type == "error" then
    match m.condition with
    | none => .yield (.message pname m)
    | some c =>
      match ec pname c with
      | .ok true => .yield (.message pname m)
      | .ok false => .skip
      | .invalid => .skip
      | .exc => .abort
  else .skip

/-- One iteration of `_getDirtyWarnings`: warn when the entry's `crc`
equals the package's checksum. -/
def dirtyEntryAct (pcrc : Nat) (pname : String) (d : DirtyM) : EntryAct :=
  if d.crc == pcrc then .yield (.dirtyPlugin pname d) else .skip

/-- Run a per-item loop body over a generator's items: warnings yielded
before an abort are kept, the flag records whether an exception escaped. -/
def runEntries {α : Type} (act : α → EntryAct) : List α → List LOOTWarning × Bool
  | [] => ([], false)
  | x :: rest =>
    match act x with
    | .abort => ([], true)
    | .skip => runEntries act rest
    | .yield w => (w :: (runEntries act rest).1, (runEntries act rest).2)

theorem runEntries_nil {α : Type} (act : α → EntryAct) : runEntries act [] = ([], false) := rfl

theorem runEntries_cons {α : Type} (act : α → EntryAct) (x : α) (rest : List α) :
    runEntries act (x :: rest)
      = match act x with
        | .abort => ([], true)
        | .skip => runEntries act rest
        | .yield w => (w :: (runEntries act rest).1, (runEntries act rest).2) := by
  rw [runEntries.eq_def]

def _getMissingRequirementWarnings (fc : String → Option Bool)
    (ec : String → String → CondOutcome) (pname : String) (requiredFiles : List LFile) :
    List LOOTWarning × Bool :=
  runEntries (reqEntryAct fc ec pname) requiredFiles

def _getIncompatibilityWarnings (fc : String → Option Bool)
    (ec : String → String → CondOutcome) (pname : String)
    (incompatibleFiles : List LFile) : List LOOTWarning × Bool :=
  runEntries (incEntryAct fc ec pname) incompatibleFiles

def _getMessageWarnings (ec : String → String → CondOutcome) (includeInfo : Bool)
    (pname : String) (messages : List MsgM) : List LOOTWarning × Bool :=
  runEntries (msgEntryAct ec includeInfo pname) messages

def _getDirtyWarnings (pname : String) (pcrc : Nat) (dirtyInfos : List DirtyM) :
    List LOOTWarning × Bool :=
  runEntries (dirtyEntryAct pcrc pname) dirtyInfos

/-- Sequence two generator runs: an abort in the first cuts the second off
(`yield from` stops at the raised exception). -/
def seqG (a b : List LOOTWarning × Bool) : List LOOTWarning × Bool :=
  if a.2 then a else (a.1 ++ b.1, b.2)

/-- Model of `_getPluginWarnings`: the four optional fields processed in
source order (requirements, incompatibilities, messages, dirty info). -/
def _getPluginWarnings (fc : String → Option Bool) (ec : String → String → CondOutcome)
    (includeInfo : Bool) (p : PkgModel) (entry : PluginEntry) : List LOOTWarning × Bool :=
  seqG (match entry.req with
        | some l => _getMissingRequirementWarnings fc ec p.name l
        | none => ([], false))
    (seqG (match entry.inc with
          | some l => _getIncompatibilityWarnings fc ec p.name l
          | none => ([], false))
      (seqG (match entry.msg with
            | some l => _getMessageWarnings ec includeInfo p.name l
            | none => ([], false))
        (match entry.dirty with
          | some l => _getDirtyWarnings p.name p.crc l
          | none => ([], false))))

/-- One iteration of `getWarnings`: the unconditional structural check
(`FormID_OutOfRangeWarning` when the plugin is light but invalid as light;
a `PluginParseError` is logged and skipped), then the metadata lookup and
the per-package warnings, whose escaping exception is caught at the package
boundary (warnings already yielded are kept). -/
def perPluginWarnings (fc : String → Option Bool) (ec : String → String → CondOutcome)
    (lookup : String → Option PluginEntry) (includeInfo : Bool) (p : PkgModel) :
    List LOOTWarning :=
  (match p.parse with
    | some (isLight, validAsLight) =>
      if isLight && !validAsLight then [.formIDOutOfRange p.name] else []
    | none => []) ++
  (match lookup p.name with
    | some entry => (_getPluginWarnings fc ec includeInfo p entry).1
    | none => [])

/-- Model of `LOOTMasterlistLoader.getWarnings`: the discovered packages in
order, each contributing its per-package warnings. -/
def getWarnings (fc : String → Option Bool) (ec : String → String → CondOutcome)
    (lookup : String → Option PluginEntry) (includeInfo : Bool)
    (plugins : List PkgModel) : List LOOTWarning :=
  plugins.flatMap (perPluginWarnings fc ec lookup includeInfo)

def warnOwner : LOOTWarning → String
  | .formIDOutOfRange n => n
  | .missingRequirement n _ => n
  | .incompatibility n _ => n
  | .message n _ => n
  | .dirtyPlugin n _ => n

def isFormIDW : LOOTWarning → Bool
  | .formIDOutOfRange _ => true
  | _ => false

theorem seqG_mem {a b : List LOOTWarning × Bool} {w : LOOTWarning}
    (hw : w ∈ (seqG a b).1) : w ∈ a.1 ∨ w ∈ b.1 := by
  unfold seqG at hw
  by_cases h : a.2 = true
  · rw [if_pos h] at hw
    exact Or.inl hw
  · rw [if_neg h] at hw
    exact List.mem_append.mp hw

theorem runEntries_all {α : Type} (act : α → EntryAct) (P : LOOTWarning → Prop)
    (hact : ∀ x w, act x = .yield w → P w) :
    ∀ l w, w ∈ (runEntries act l).1 → P w := by
  intro l
  induction l with
  | nil => intro w hw; simp [runEntries_nil] at hw
  | cons x rest ih =>
    intro w hw
    cases hx : act x with
    | abort =>
      rw [runEntries_cons, hx] at hw
      simp at hw
    | skip =>
      rw [runEntries_cons, hx] at hw
      exact ih w hw
    | yield u =>
      rw [runEntries_cons, hx] at hw
      have hw' : w ∈ u :: (runEntries act rest).1 := hw
      rcases List.mem_cons.mp hw' with rfl | h
      · exact hact x w hx
      · exact ih w h

theorem reqEntryAct_yield {fc : String → Option Bool} {ec : String → String → CondOutcome}
    {pname : String} {x : LFile} {w : LOOTWarning}
    (h : reqEntryAct fc ec pname x = .yield w) :
    warnOwner w = pname ∧ isFormIDW w = false := by
  cases x <;> unfold reqEntryAct at h <;> repeat' split at h
  all_goals (cases h <;> exact ⟨rfl, rfl⟩)

theorem incEntryAct_yield {fc : String → Option Bool} {ec : String → String → CondOutcome}
    {pname : String} {x : LFile} {w : LOOTWarning}
    (h : incEntryAct fc ec pname x = .yield w) :
    warnOwner w = pname ∧ isFormIDW w = false := by
  cases x <;> unfold incEntryAct at h <;> repeat' split at h
  all_goals (cases h <;> exact ⟨rfl, rfl⟩)

theorem msgEntryAct_yield {ec : String → String → CondOutcome} {includeInfo : Bool}
    {pname : String} {m : MsgM} {w : LOOTWarning}
    (h : msgEntryAct ec includeInfo pname m = .yield w) :
    warnOwner w = pname ∧ isFormIDW w = false := by
  unfold msgEntryAct at h
  repeat' split at h
  all_goals (cases h <;> exact ⟨rfl, rfl⟩)

theorem dirtyEntryAct_yield {pcrc : Nat} {pname : String} {d : DirtyM} {w : LOOTWarning}
    (h : dirtyEntryAct pcrc pname d = .yield w) :
    warnOwner w = pname ∧ isFormIDW w = false := by
  unfold dirtyEntryAct at h
  repeat' split at h
  all_goals (cases h <;> exact ⟨rfl, rfl⟩)

theorem pluginWarnings_mem {fc : String → Option Bool} {ec : String → String → CondOutcome}
    {ii : Bool} {p : PkgModel} {entry : PluginEntry} {w : LOOTWarning}
    (hw : w ∈ (_getPluginWarnings fc ec ii p entry).1) :
    warnOwner w = p.name ∧ isFormIDW w = false := by
  unfold _getPluginWarnings at hw
  rcases seqG_mem hw with h | h
  · cases hreq : entry.req with
    | none => rw [hreq] at h; simp at h
    | some l =>
      rw [hreq] at h
      exact runEntries_all _ _ (fun x u hx => reqEntryAct_yield hx) l w h
  rcases seqG_mem h with h | h
  · cases hinc : entry.inc with
    | none => rw [hinc] at h; simp at h
    | some l =>
      rw [hinc] at h
      exact runEntries_all _ _ (fun x u hx => incEntryAct_yield hx) l w h
  rcases seqG_mem h with h | h
  · cases hmsg : entry.msg with
    | none => rw [hmsg] at h; simp at h
    | some l =>
      rw [hmsg] at h
      exact runEntries_all _ _ (fun x u hx => msgEntryAct_yield hx) l w h
  · cases hdirty : entry.dirty with
    | none => rw [hdirty] at h; simp at h
    | some l =>
      rw [hdirty] at h
      exact runEntries_all _ _ (fun x u hx => dirtyEntryAct_yield hx) l w h

theorem perPlugin_owner {fc : String → Option Bool} {ec : String → String → CondOutcome}
    {lookup : String → Option PluginEntry} {ii : Bool} {q : PkgModel} {w : LOOTWarning}
    (hw : w ∈ perPluginWarnings fc ec lookup ii q) : warnOwner w = q.name := by
  unfold perPluginWarnings at hw
  rcases List.mem_append.mp hw with h | h
  · cases hp : q.parse with
    | none => rw [hp] at h; simp at h
    | some pr =>
      rcases pr with ⟨l, v⟩
      rw [hp] at h
      have h' : w ∈ (if l && !v then [LOOTWarning.formIDOutOfRange q.name] else []) := h
      by_cases hc : (l && !v) = true
      · rw [if_pos hc] at h'
        rcases List.mem_singleton.mp h' with rfl
        rfl
      · rw [if_neg hc] at h'
        simp at h'
  · cases hl : lookup q.name with
    | none => rw [hl] at h; simp at h
    | some entry =>
      rw [hl] at h
      exact (pluginWarnings_mem h).1

theorem countP_flatMap {α : Type} (f : α → List LOOTWarning) (p : LOOTWarning → Bool)
    (l : List α) :
    (l.flatMap f).countP p = (l.map fun a => (f a).countP p).sum := by
  induction l with
  | nil => rfl
  | cons a l ih => simp [List.flatMap_cons, List.countP_append, ih]

theorem countPerPlugin_zero (fc : String → Option Bool) (ec : String → String → CondOutcome)
    (lookup : String → Option PluginEntry) (ii : Bool) (pnm : String) (q : PkgModel)
    (hq : q.name ≠ pnm) :
    (perPluginWarnings fc ec lookup ii q).countP
      (fun w => w == LOOTWarning.formIDOutOfRange pnm) = 0 := by
  rw [List.countP_eq_zero]
  intro w hw
  have hown := perPlugin_owner hw
  simp only [beq_iff_eq]
  intro hwe
  subst hwe
  exact hq hown.symm

theorem countPerPlugin_self (fc : String → Option Bool) (ec : String → String → CondOutcome)
    (lookup : String → Option PluginEntry) (ii : Bool) (p : PkgModel)
    (hp : p.parse = some (true, false)) :
    (perPluginWarnings fc ec lookup ii p).countP
      (fun w => w == LOOTWarning.formIDOutOfRange p.name) = 1 := by
  unfold perPluginWarnings
  rw [List.countP_append]
  have e1 : (match p.parse with
      | some (isLight, validAsLight) =>
        if isLight && !validAsLight then [LOOTWarning.formIDOutOfRange p.name] else []
      | none => ([] : List LOOTWarning)) = [LOOTWarning.formIDOutOfRange p.name] := by
    rw [hp]
    rfl
  rw [e1]
  have e2 : (match lookup p.name with
      | some entry => (_getPluginWarnings fc ec ii p entry).1
      | none => ([] : List LOOTWarning)).countP
        (fun w => w == LOOTWarning.formIDOutOfRange p.name) = 0 := by
    rw [List.countP_eq_zero]
    intro w hw
    cases hl : lookup p.name with
    | none => rw [hl] at hw; simp at hw
    | some entry =>
      rw [hl] at hw
      have hform := (pluginWarnings_mem hw).2
      simp only [beq_iff_eq]
      intro hwe
      subst hwe
      simp [isFormIDW] at hform
  rw [e2]
  simp

/-- C6: a package the structural parser reports as light but invalid as
light yields exactly one `FormID_OutOfRangeWarning` in the pass, whether or
not a metadata record exists for it (the metadata lookup is an arbitrary
oracle here). -/
theorem invalid_light_plugin_one_warning (fc : String → Option Bool)
    (ec : String → String → CondOutcome) (lookup : String → Option PluginEntry)
    (ii : Bool) (pre post : List PkgModel) (p : PkgModel)
    (hp : p.parse = some (true, false))
    (hpre : ∀ q ∈ pre, q.name ≠ p.name) (hpost : ∀ q ∈ post, q.name ≠ p.name) :
    (getWarnings fc ec lookup ii (pre ++ p :: post)).countP
      (fun w => w == LOOTWarning.formIDOutOfRange p.name) = 1 := by
  unfold getWarnings
  rw [countP_flatMap]
  rw [List.map_append, List.map_cons, List.sum_append, List.sum_cons]
  have hzpre : (pre.map fun q => (perPluginWarnings fc ec lookup ii q).countP
      (fun w => w == LOOTWarning.formIDOutOfRange p.name)).sum = 0 := by
    apply List.sum_eq_zero
    intro x hx
    obtain ⟨q, hq, rfl⟩ := List.mem_map.mp hx
    exact countPerPlugin_zero fc ec lookup ii p.name q (hpre q hq)
  have hzpost : (post.map fun q => (perPluginWarnings fc ec lookup ii q).countP
      (fun w => w == LOOTWarning.formIDOutOfRange p.name)).sum = 0 := by
    apply List.sum_eq_zero
    intro x hx
    obtain ⟨q, hq, rfl⟩ := List.mem_map.mp hx
    exact countPerPlugin_zero fc ec lookup ii p.name q (hpost q hq)
  rw [hzpre, hzpost, countPerPlugin_self fc ec lookup ii p hp]
  omega

theorem invalid_light_plugin_one_warning_witness :
    (getWarnings (fun _ => some true) (fun _ _ => CondOutcome.ok false) (fun _ => none)
      false [⟨"a.esl", 0, some (true, false)⟩]).countP
      (fun w => w == LOOTWarning.formIDOutOfRange "a.esl") = 1 := by
  have h := invalid_light_plugin_one_warning (fun _ => some true)
    (fun _ _ => CondOutcome.ok false) (fun _ => none) false [] []
    ⟨"a.esl", 0, some (true, false)⟩ rfl
    (fun q hq => absurd hq (List.not_mem_nil q)) (fun q hq => absurd hq (List.not_mem_nil q))
  simpa using h

/-! ### C9: an invalid condition skips only its own entry -/

theorem runEntries_skip_middle {α : Type} (act : α → EntryAct) (r1 r2 : List α) (bad : α)
    (h : act bad = .skip) :
    runEntries act (r1 ++ bad :: r2) = runEntries act (r1 ++ r2) := by
  induction r1 with
  | nil => rw [List.nil_append, List.nil_append, runEntries_cons, h]
  | cons x r1 ih =>
    rw [List.cons_append, List.cons_append, runEntries_cons, runEntries_cons, ih]

theorem reqEntryAct_invalid_skip {fc : String → Option Bool}
    {ec : String → String → CondOutcome} {pname nm c : String}
    {fields : List (String × String)}
    (hn : alookup "name" fields = some nm) (hfc : fc nm = some false)
    (hc : alookup "condition" fields = some c) (he : ec pname c = .invalid) :
    reqEntryAct fc ec pname (.d fields) = .skip := by
  simp only [reqEntryAct, hn, hfc, hc, he]

theorem getPluginWarnings_req_congr (fc : String → Option Bool)
    (ec : String → String → CondOutcome) (ii : Bool) (q : PkgModel) (e : PluginEntry)
    (L L' : List LFile)
    (hL : _getMissingRequirementWarnings fc ec q.name L
        = _getMissingRequirementWarnings fc ec q.name L') :
    _getPluginWarnings fc ec ii q { e with req := some L }
      = _getPluginWarnings fc ec ii q { e with req := some L' } := by
  unfold _getPluginWarnings
  congr 1

/-- C9: a requirement entry whose condition raises `InvalidConditionError`
is skipped in place — the requirement scan of a list containing it equals
the scan without it, and a whole warning pass over a store whose record for
`pname` contains that entry equals the pass over the store with the entry
removed: sibling entries and all other packages are unaffected. -/
theorem invalid_condition_skips_only_entry (fc : String → Option Bool)
    (ec : String → String → CondOutcome) (lookup lookup' : String → Option PluginEntry)
    (ii : Bool) (plugins : List PkgModel) (pname nm c : String)
    (fields : List (String × String)) (e : PluginEntry) (r1 r2 : List LFile)
    (hn : alookup "name" fields = some nm) (hfc : fc nm = some false)
    (hc : alookup "condition" fields = some c) (he : ec pname c = .invalid)
    (hLe : lookup pname = some e)
    (hereq : e.req = some (r1 ++ .d fields :: r2))
    (hlook : ∀ x, lookup' x
      = if x = pname then some { e with req := some (r1 ++ r2) } else lookup x) :
    _getMissingRequirementWarnings fc ec pname (r1 ++ .d fields :: r2)
        = _getMissingRequirementWarnings fc ec pname (r1 ++ r2) ∧
    getWarnings fc ec lookup ii plugins = getWarnings fc ec lookup' ii plugins := by
  have hskip : reqEntryAct fc ec pname (.d fields) = .skip :=
    reqEntryAct_invalid_skip hn hfc hc he
  constructor
  · exact runEntries_skip_middle _ r1 r2 _ hskip
  · unfold getWarnings
    induction plugins with
    | nil => rfl
    | cons q rest ih =>
      rw [List.flatMap_cons, List.flatMap_cons, ih]
      congr 1
      unfold perPluginWarnings
      congr 1
      rw [hlook q.name]
      by_cases hq : q.name = pname
      · rw [if_pos hq, hq, hLe]
        have he' : ({ e with req := some (r1 ++ LFile.d fields :: r2) } : PluginEntry)
            = e := by
          obtain ⟨req0, inc0, msg0, dirty0⟩ := e
          simp only at hereq
          rw [show ({ PluginEntry.mk req0 inc0 msg0 dirty0 with
            req := some (r1 ++ LFile.d fields :: r2) } : PluginEntry)
              = PluginEntry.mk (some (r1 ++ LFile.d fields :: r2)) inc0 msg0 dirty0 from rfl]
          rw [hereq]
        have hskipq : reqEntryAct fc ec q.name (.d fields) = .skip := by
          rw [hq]; exact hskip
        have key := getPluginWarnings_req_congr fc ec ii q e
          (r1 ++ LFile.d fields :: r2) (r1 ++ r2)
          (runEntries_skip_middle _ r1 r2 _ hskipq)
        show (_getPluginWarnings fc ec ii q e).1
          = (_getPluginWarnings fc ec ii q { e with req := some (r1 ++ r2) }).1
        calc (_getPluginWarnings fc ec ii q e).1
            = (_getPluginWarnings fc ec ii q
                { e with req := some (r1 ++ LFile.d fields :: r2) }).1 := by rw [he']
          _ = (_getPluginWarnings fc ec ii q { e with req := some (r1 ++ r2) }).1 := by
              rw [key]
      · rw [if_neg hq]

/-- Concrete oracles for the C9 witness: `req.esp` is missing on disk,
`badcond` is a malformed condition. -/
def fcW : String → Option Bool := fun s => if s = "req.esp" then some false else some true

def ecW : String → String → CondOutcome :=
  fun _ c => if c = "badcond" then CondOutcome.invalid else CondOutcome.ok true

def eW : PluginEntry :=
  ⟨some [LFile.s "q1.esp", LFile.d [("name", "req.esp"), ("condition", "badcond")]],
    none, none, none⟩

def lookupW : String → Option PluginEntry := fun x => if x = "p.esp" then some eW else none

def lookupW2 : String → Option PluginEntry :=
  fun x =>
    if x = "p.esp" then some { eW with req := some ([LFile.s "q1.esp"] ++ []) }
    else lookupW x

theorem invalid_condition_skips_only_entry_witness :
    _getMissingRequirementWarnings fcW ecW "p.esp"
        ([LFile.s "q1.esp"] ++ LFile.d [("name", "req.esp"), ("condition", "badcond")] :: [])
      = _getMissingRequirementWarnings fcW ecW "p.esp" ([LFile.s "q1.esp"] ++ []) ∧
    getWarnings fcW ecW lookupW false [⟨"p.esp", 7, none⟩]
      = getWarnings fcW ecW lookupW2 false [⟨"p.esp", 7, none⟩] :=
  invalid_condition_skips_only_entry fcW ecW lookupW lookupW2 false
    [⟨"p.esp", 7, none⟩] "p.esp" "req.esp" "badcond"
    [("name", "req.esp"), ("condition", "badcond")] eW [LFile.s "q1.esp"] []
    (by decide) (by decide) (by decide) (by decide) (by decide) rfl (fun x => rfl)

end LWC
